import Mathlib

/-!
Verification of the MySQL-backed Trillian log storage engine against its
natural-language specification.

The definitions below are a shallow embedding of the Go source in
`storage/mysql/log_storage.go` and `storage/mysql/admin_storage.go`.
Byte strings are `List Nat`; machine integers (`int64`) are `Int`; SQL
tables are lists of row structures; fallible operations return `Except`.
Definitions whose counterpart is not under the provided source subset
(only the schema description or the spec documents them) carry a doc
comment starting with `Modelled from the spec:`.

Go note: `sort.Sort` is an unstable sort whose order among comparator-equal
elements is unspecified.  We model it with the verified stable `mergeSort`
from the standard library over the same comparator; this is one admissible
execution of the Go code, and the only place it matters is the relative
order of input leaves whose `LeafIdentityHash` values are bytewise equal.
-/

set_option maxHeartbeats 1000000

/-- Byte strings (Go `[]byte`) as lists of naturals. -/
abbrev Bytes := List Nat

/-- Embedding of Go `bytes.Compare(a, b) == -1`: strict lexicographic order on
byte strings, a proper prefix being smaller. -/
def bytesLt : Bytes → Bytes → Bool
  | [], [] => false
  | [], _ :: _ => true
  | _ :: _, [] => false
  | a :: as, b :: bs => if a < b then true else if b < a then false else bytesLt as bs

/-- Non-strict bytewise order, written the way `sort.Sort` consumes the
`Less` comparator of `byLeafIdentityHashWithPosition`: `a` may stay before
`b` iff `b` is not strictly smaller. -/
def bytesLe (a b : Bytes) : Bool := !(bytesLt b a)

/-! ### The leaf sort used by QueueLeaves and AddSequencedLeaves

Embedding of `sortLeavesForInsert`, `leafAndPosition` and
`byLeafIdentityHashWithPosition` from `storage/mysql/log_storage.go`. -/

/-- Embedding of `trillian.LogLeaf` (the fields the storage layer touches).
Proto3 scalar fields default to zero values; the two timestamp fields are
pointers in Go, so they are `Option` here (`none` = unset). -/
structure LogLeaf where
  merkleLeafHash : Bytes := []
  leafIdentityHash : Bytes := []
  leafValue : Bytes := []
  extraData : Bytes := []
  leafIndex : Int := 0
  queueTimestampNanos : Option Int := none
  integrateTimestampNanos : Option Int := none
deriving DecidableEq, Repr, Inhabited

/-- Embedding of `leafAndPosition`: a leaf paired with its original position. -/
structure leafAndPosition where
  leaf : LogLeaf
  idx : Nat
deriving DecidableEq, Repr

/-- Comparator of `byLeafIdentityHashWithPosition`, phrased as the non-strict
relation `sort.Sort` establishes: `Less(j, i)` must be false. -/
def byLeafIdentityHashLe (a b : leafAndPosition) : Bool :=
  bytesLe a.leaf.leafIdentityHash b.leaf.leafIdentityHash

/-- Embedding of `sortLeavesForInsert`: pair each leaf with its position and
sort by `LeafIdentityHash` ascending. -/
def sortLeavesForInsert (leaves : List LogLeaf) : List leafAndPosition :=
  ((leaves.enum.map fun p => leafAndPosition.mk p.2 p.1)).mergeSort byLeafIdentityHashLe

/-- The enumerated input that `sortLeavesForInsert` permutes. -/
def enumeratedLeaves (leaves : List LogLeaf) : List leafAndPosition :=
  leaves.enum.map fun p => leafAndPosition.mk p.2 p.1

/-! ### Admin storage

Embedding of `storage/mysql/admin_storage.go`: the `Trees`, `TreeControl`
and `TreeHead` tables and the tree lifecycle operations.  A foreign-key
cascade is outside the embedding; only the statements the Go code issues
are modelled. -/

/-- Tree types relevant to the log storage (`trillian.TreeType`). -/
inductive TreeType
  | log
  | preorderedLog
deriving DecidableEq, Repr

/-- Tree states (`trillian.TreeState`). -/
inductive TreeState
  | active
  | frozen
  | draining
deriving DecidableEq, Repr

/-- Row of the `Trees` table, as listed in `selectTrees`.  `PrivateKey` is
unused; `PublicKey` stores the gob-encoded `storageSettings`.  The nullable
columns `Deleted` and `DeleteTimeMillis` are `Option`. -/
structure TreesRow where
  treeId : Int
  treeState : TreeState
  treeType : TreeType
  displayName : String
  description : String
  createTimeMillis : Int
  updateTimeMillis : Int
  privateKey : Bytes
  publicKey : Bytes
  maxRootDurationMillis : Int
  deleted : Option Bool
  deleteTimeMillis : Option Int
deriving DecidableEq, Repr

/-- Row of the `TreeControl` table. -/
structure TreeControlRow where
  treeId : Int
  signingEnabled : Bool
  sequencingEnabled : Bool
  sequenceIntervalSeconds : Int
deriving DecidableEq, Repr

/-- Row of the `TreeHead` table, as listed in `selectLatestSignedLogRootSQL`. -/
structure TreeHeadRow where
  treeId : Int
  treeHeadTimestamp : Int
  treeSize : Int
  rootHash : Bytes
  treeRevision : Int
  rootSignature : Bytes
deriving DecidableEq, Repr

/-- The admin-visible database: the three tables the admin transaction
touches. -/
structure AdminDB where
  trees : List TreesRow
  treeControl : List TreeControlRow
  treeHead : List TreeHeadRow
deriving DecidableEq, Repr

/-- Error kinds surfaced by the admin operations, tagged with the gRPC code
the Go code attaches. -/
inductive AdminErr
  | notFound
  | notSoftDeleted
  | alreadySoftDeleted
  | invalidUpdate
deriving DecidableEq, Repr

/-- Coarse gRPC code classification used across the embedding. -/
inductive GrpcCode
  | ok
  | notFound
  | failedPrecondition
  | invalidArgument
  | outOfRange
  | alreadyExists
  | resourceExhausted
  | internal
  | unimplemented
  | unknown
deriving DecidableEq, Repr

/-- The gRPC code of each admin error, following the `status.Errorf` calls in
`admin_storage.go`. -/
def AdminErr.code : AdminErr → GrpcCode
  | .notFound => .notFound
  | .notSoftDeleted => .failedPrecondition
  | .alreadySoftDeleted => .failedPrecondition
  | .invalidUpdate => .invalidArgument

/-- Lookup of a `Trees` row by id (`WHERE TreeId = ?`; ids are unique keys). -/
def treesFind (db : AdminDB) (treeID : Int) : Option TreesRow :=
  db.trees.find? fun r => decide (r.treeId = treeID)

/-- Go reads `Deleted` into a `sql.NullBool`; the row counts as deleted iff
the column is non-NULL and true (`nullDeleted.Valid && nullDeleted.Bool`). -/
def rowDeleted (r : TreesRow) : Bool := r.deleted.getD false

/-- Embedding of `validateDeleted`: fetch the `Deleted` column; a missing row
is `NotFound`; a deleted-state mismatch is `FailedPrecondition`. -/
def validateDeleted (db : AdminDB) (treeID : Int) (wantDeleted : Bool) :
    Except AdminErr Unit :=
  match treesFind db treeID with
  | none => .error .notFound
  | some r =>
    if wantDeleted && !(rowDeleted r) then .error .notSoftDeleted
    else if !wantDeleted && rowDeleted r then .error .alreadySoftDeleted
    else .ok ()

/-- Embedding of `adminTX.GetTree` (row retrieval part). -/
def getTree (db : AdminDB) (treeID : Int) : Except AdminErr TreesRow :=
  match treesFind db treeID with
  | none => .error .notFound
  | some r => .ok r

/-- Embedding of `adminTX.updateDeleted`: validate the current deleted state,
then set `Deleted` and `DeleteTimeMillis` on the tree row and re-read it. -/
def updateDeleted (db : AdminDB) (treeID : Int) (deleted : Bool)
    (deleteTimeMillis : Option Int) : Except AdminErr (AdminDB × TreesRow) :=
  match validateDeleted db treeID (!deleted) with
  | .error e => .error e
  | .ok _ =>
    let db' : AdminDB :=
      { db with trees := db.trees.map fun r =>
          if decide (r.treeId = treeID) then
            { r with deleted := some deleted, deleteTimeMillis := deleteTimeMillis }
          else r }
    match getTree db' treeID with
    | .error e => .error e
    | .ok r => .ok (db', r)

/-- Embedding of `adminTX.SoftDeleteTree`. -/
def softDeleteTree (db : AdminDB) (treeID : Int) (nowMillis : Int) :
    Except AdminErr (AdminDB × TreesRow) :=
  updateDeleted db treeID true (some nowMillis)

/-- Embedding of `adminTX.UndeleteTree`. -/
def undeleteTree (db : AdminDB) (treeID : Int) :
    Except AdminErr (AdminDB × TreesRow) :=
  updateDeleted db treeID false none

/-- Embedding of `adminTX.HardDeleteTree`: after `validateDeleted` it issues
exactly two DELETE statements, against `TreeControl` and `Trees`; no
statement touches `TreeHead`. -/
def hardDeleteTree (db : AdminDB) (treeID : Int) : Except AdminErr AdminDB :=
  match validateDeleted db treeID true with
  | .error e => .error e
  | .ok _ =>
    .ok { db with
          treeControl := db.treeControl.filter fun r => decide (r.treeId ≠ treeID),
          trees := db.trees.filter fun r => decide (r.treeId ≠ treeID) }

/-- Row used by the C7 witness: a live (never deleted) tree with id 5. -/
def exTreesRow5 : TreesRow :=
  { treeId := 5, treeState := .active, treeType := .log,
    displayName := "t", description := "d",
    createTimeMillis := 1, updateTimeMillis := 1,
    privateKey := [], publicKey := [7],
    maxRootDurationMillis := 0, deleted := none, deleteTimeMillis := none }

/-- Admin database used by the C7 witness: only tree 5 exists. -/
def exAdminDB5 : AdminDB :=
  { trees := [exTreesRow5], treeControl := [], treeHead := [] }

/-- An admin database holding one soft-deleted tree 7 together with its
tree-control row and one tree-head row. -/
def exAdminDB : AdminDB :=
  { trees := [{ treeId := 7, treeState := .frozen, treeType := .log,
                displayName := "t", description := "d",
                createTimeMillis := 1, updateTimeMillis := 2,
                privateKey := [], publicKey := [1, 2],
                maxRootDurationMillis := 0, deleted := some true,
                deleteTimeMillis := some 9 }],
    treeControl := [{ treeId := 7, signingEnabled := true,
                      sequencingEnabled := true, sequenceIntervalSeconds := 60 }],
    treeHead := [{ treeId := 7, treeHeadTimestamp := 100, treeSize := 3,
                   rootHash := [5], treeRevision := 1, rootSignature := [] }] }

/-! ### UpdateTree -/

/-- Modelled from the spec: the in-memory tree object produced by `readTree`
(whose source is not under src/).  Section 3 of the spec lists the tree
attributes; the stored settings bytes are carried through undecoded. -/
structure TrillianTree where
  treeId : Int
  treeState : TreeState
  treeType : TreeType
  displayName : String
  description : String
  createTimeMillis : Int
  updateTimeMillis : Int
  maxRootDurationMillis : Int
  storageSettingsBytes : Bytes
deriving DecidableEq, Repr

/-- Modelled from the spec: `readTree` converts a `Trees` row into the tree
object, field for field. -/
def readTree (r : TreesRow) : TrillianTree :=
  { treeId := r.treeId, treeState := r.treeState, treeType := r.treeType,
    displayName := r.displayName, description := r.description,
    createTimeMillis := r.createTimeMillis, updateTimeMillis := r.updateTimeMillis,
    maxRootDurationMillis := r.maxRootDurationMillis,
    storageSettingsBytes := r.publicKey }

/-- Embedding of `adminTX.UpdateTree`: load the tree, apply the caller
mutator, validate the old-to-new transition (`ValidateTreeForUpdate` is not
under src/, so the validator is a parameter; the theorem below holds for
every validator), then execute `updateTreeSQL`, which rewrites exactly the
columns `TreeState`, `TreeType`, `DisplayName`, `Description`,
`UpdateTimeMillis`, `MaxRootDurationMillis` and `PrivateKey`. -/
def updateTree (db : AdminDB) (treeID : Int) (updateFunc : TrillianTree → TrillianTree)
    (validateUpdate : TrillianTree → TrillianTree → Bool) (nowMillis : Int) :
    Except AdminErr (AdminDB × TrillianTree) :=
  match getTree db treeID with
  | .error e => .error e
  | .ok row =>
    let beforeUpdate := readTree row
    let tree := updateFunc beforeUpdate
    if validateUpdate beforeUpdate tree then
      let tree' := { tree with updateTimeMillis := nowMillis }
      let db' : AdminDB :=
        { db with trees := db.trees.map fun r =>
            if decide (r.treeId = treeID) then
              { r with treeState := tree'.treeState, treeType := tree'.treeType,
                       displayName := tree'.displayName,
                       description := tree'.description,
                       updateTimeMillis := nowMillis,
                       maxRootDurationMillis := tree'.maxRootDurationMillis,
                       privateKey := [] }
            else r }
      .ok (db', tree')
    else .error .invalidUpdate

/-- Database state after the witness run of `updateTree` below. -/
def exAdminDB5After : AdminDB :=
  { trees := [{ exTreesRow5 with
                displayName := "renamed"
                updateTimeMillis := 4
                privateKey := [] }],
    treeControl := [], treeHead := [] }

/-- Tree object returned by the witness run of `updateTree` below. -/
def exTreeAfter : TrillianTree :=
  { readTree exTreesRow5 with displayName := "renamed", updateTimeMillis := 4 }

/-! ### StoreSignedLogRoot

Embedding of `logTreeTX.StoreSignedLogRoot` and `fetchLatestRoot` from
`storage/mysql/log_storage.go`. -/

/-- Embedding of `types.LogRootV1` after a successful `UnmarshalBinary`. -/
structure LogRootV1 where
  treeSize : Int
  rootHash : Bytes
  timestampNanos : Int
  metadata : Bytes
deriving DecidableEq, Repr

/-- Errors of the store-root path.  `metadataNotSupported` is the
`unimplemented: mysql storage does not support log root metadata` error;
`insertFailed` covers a failed `insertTreeHeadSQL` execution. -/
inductive StoreRootErr
  | metadataNotSupported
  | insertFailed
deriving DecidableEq, Repr

/-- Modelled from the spec: `TreeHead` rows are keyed by
`(TreeId, TreeRevision)`, so the insert fails iff a row with the same key
exists.  The text of `insertTreeHeadSQL` is not under src/. -/
def insertTreeHead (heads : List TreeHeadRow) (row : TreeHeadRow) :
    Option (List TreeHeadRow) :=
  if heads.any (fun r => decide (r.treeId = row.treeId ∧ r.treeRevision = row.treeRevision))
  then none
  else some (heads ++ [row])

/-- Embedding of `fetchLatestRoot` for one tree: `selectLatestSignedLogRootSQL`
orders by `TreeHeadTimestamp` descending and takes one row. -/
def latestRoot (treeID : Int) (heads : List TreeHeadRow) : Option TreeHeadRow :=
  (heads.filter fun r => decide (r.treeId = treeID)).foldl
    (fun acc r =>
      match acc with
      | none => some r
      | some m => if r.treeHeadTimestamp > m.treeHeadTimestamp then some r else some m)
    none

/-- Embedding of `logTreeTX.StoreSignedLogRoot`: after parsing, the only
check is that the root carries no metadata; the row is then inserted at the
write revision of the transaction, and the insert must report exactly one
affected row (`checkResultOkAndRowCountIs`). -/
def storeSignedLogRoot (treeID : Int) (heads : List TreeHeadRow)
    (writeRevision : Int) (root : LogRootV1) :
    Except StoreRootErr (List TreeHeadRow) :=
  if root.metadata ≠ [] then .error .metadataNotSupported
  else
    match insertTreeHead heads
        { treeId := treeID, treeHeadTimestamp := root.timestampNanos,
          treeSize := root.treeSize, rootHash := root.rootHash,
          treeRevision := writeRevision, rootSignature := [] } with
    | none => .error .insertFailed
    | some heads' => .ok heads'

/-- Tree-head table used by the C1 counterexample: one head for tree 1 at
revision 1, with timestamp 10 and size 5. -/
def exHeads : List TreeHeadRow :=
  [{ treeId := 1, treeHeadTimestamp := 10, treeSize := 5, rootHash := [1],
     treeRevision := 1, rootSignature := [] }]

/-- Root supplied in the C1 counterexample: same size 5, but timestamp 3,
which is NOT strictly greater than the current timestamp 10; no metadata. -/
def exStaleRoot : LogRootV1 :=
  { treeSize := 5, rootHash := [2], timestampNanos := 3, metadata := [] }

/-! ### Quota manager

The quota manager implementation (`postgresqlqm` / `mysqlqm`) is not under
src/; only its test file is.  The definitions are therefore modelled from
section 4.5 of the spec and checked against the behaviours the test
asserts. -/

/-- Quota scopes (`quota.Group`). -/
inductive QuotaGroup
  | user
  | tree
  | global
deriving DecidableEq, Repr

/-- Quota kinds (`quota.Kind`). -/
inductive QuotaKind
  | read
  | write
deriving DecidableEq, Repr

/-- A quota spec: scope plus kind (the user name / tree id play no role in
this implementation). -/
structure QuotaSpec where
  group : QuotaGroup
  kind : QuotaKind
deriving DecidableEq, Repr

/-- State the quota manager can observe: the number of unsequenced rows
(either an exact `SELECT COUNT` or the statistics estimate). -/
structure QuotaState where
  unsequencedCount : Nat
deriving DecidableEq, Repr

/-- The only quota error: `too-many-unsequenced-rows`. -/
inductive QuotaErr
  | tooManyUnsequencedRows
deriving DecidableEq, Repr

/-- Modelled from the spec: `GetTokens(n, specs)` checks, for each spec with
Global scope and Write kind, the unsequenced backlog and returns the
too-many-unsequenced-rows error iff `backlog + n > max_unsequenced_rows`;
every other scope is unconstrained. -/
def getTokens (st : QuotaState) (maxUnsequencedRows : Nat) (numTokens : Nat)
    (specs : List QuotaSpec) : Except QuotaErr Unit :=
  if specs.any (fun s => decide (s.group = .global ∧ s.kind = .write)) &&
      decide (st.unsequencedCount + numTokens > maxUnsequencedRows)
  then .error .tooManyUnsequencedRows
  else .ok ()

/-- Modelled from the spec: `PutTokens` returns success and has no side
effect — the quota is a rate ceiling, not a reservoir. -/
def putTokens (st : QuotaState) (numTokens : Nat) (specs : List QuotaSpec) :
    Except QuotaErr (Unit × QuotaState) :=
  .ok ((), st)

/-- Modelled from the spec: `ResetQuota` returns success and has no side
effect. -/
def resetQuota (st : QuotaState) (specs : List QuotaSpec) :
    Except QuotaErr (Unit × QuotaState) :=
  .ok ((), st)

/-! ### GetLeavesByRange and DequeueLeaves -/

/-- A row of the join issued by `selectLeavesByRangeSQL`, keyed by its
`SequenceNumber` (which is scanned into `LogLeaf.LeafIndex`). -/
structure JoinedRow where
  merkleLeafHash : Bytes
  leafIdentityHash : Bytes
  leafValue : Bytes
  extraData : Bytes
  queueTimestampNanos : Int
  integrateTimestampNanos : Int
deriving DecidableEq, Repr

/-- Row of the `Unsequenced` queue table. -/
structure UnsequencedRow where
  leafIdentityHash : Bytes
  merkleLeafHash : Bytes
  queueTimestampNanos : Int
  bucket : Int
deriving DecidableEq, Repr

/-- State of one open log transaction, as populated by `beginInternal`:
tree type, `int64(t.root.TreeSize)`, the sequenced-leaf join view keyed by
sequence number (`SequencedLeafData` has unique key `(TreeId,
SequenceNumber)`, so the view maps each number to at most one row), the queue table, and the
in-transaction dedup memo `t.dequeued`. -/
structure LogTXState where
  treeType : TreeType
  treeSize : Int
  seqdb : Int → Option JoinedRow
  unsequenced : List UnsequencedRow
  dequeuedMemo : List Bytes

/-- Errors of the leaf-range and dequeue paths, tagged with gRPC codes. -/
inductive LogErr
  | invalidCount (count : Int)
  | invalidStart (start : Int)
  | emptyTree
  | startBeyondTreeSize (start treeSize : Int)
  | unexpectedIndex (got want : Int)
  | dequeuedBadHashSize
deriving DecidableEq, Repr

/-- The gRPC code of each error, following the `status.Errorf` calls of
`getLeavesByRangeInternal` (`unexpectedIndex` is a plain `fmt.Errorf`
integrity error, classified internal by the spec error taxonomy). -/
def LogErr.code : LogErr → GrpcCode
  | .invalidCount _ => .invalidArgument
  | .invalidStart _ => .invalidArgument
  | .emptyTree => .outOfRange
  | .startBeyondTreeSize _ _ => .outOfRange
  | .unexpectedIndex _ _ => .internal
  | .dequeuedBadHashSize => .unknown

/-- Result list of the range query `SequenceNumber >= a AND SequenceNumber
< a + n ORDER BY SequenceNumber`, read off the sequence-number map in
ascending order. -/
def rangeRowsN (seqdb : Int → Option JoinedRow) (a : Int) : Nat → List (Int × JoinedRow)
  | 0 => []
  | n + 1 =>
    match seqdb a with
    | some r => (a, r) :: rangeRowsN seqdb (a + 1) n
    | none => rangeRowsN seqdb (a + 1) n

/-- The range query with an `int64` count, as issued by
`getLeavesByRangeInternal` (`args = [start, start+count, treeID]`). -/
def rangeRows (st : LogTXState) (start count : Int) : List (Int × JoinedRow) :=
  rangeRowsN st.seqdb start count.toNat

/-- Conversion of a scanned row into a `LogLeaf`, mirroring the `rows.Scan`
block of `getLeavesByRangeInternal`. -/
def leafOfJoined (seq : Int) (r : JoinedRow) : LogLeaf :=
  { merkleLeafHash := r.merkleLeafHash, leafIdentityHash := r.leafIdentityHash,
    leafValue := r.leafValue, extraData := r.extraData, leafIndex := seq,
    queueTimestampNanos := some r.queueTimestampNanos,
    integrateTimestampNanos := some r.integrateTimestampNanos }

/-- The scan loop of `getLeavesByRangeInternal`: `wantIndex` starts at
`start` and advances with each returned row; a row whose index differs is
an integrity error when `wantIndex` is still below the tree size, and ends
the scan otherwise. -/
def scanLeaves (treeSize : Int) : List (Int × JoinedRow) → Int → Except LogErr (List LogLeaf)
  | [], _ => .ok []
  | (seq, r) :: rest, wantIndex =>
    if seq ≠ wantIndex then
      if wantIndex < treeSize then .error (.unexpectedIndex seq wantIndex)
      else .ok []
    else
      match scanLeaves treeSize rest (wantIndex + 1) with
      | .error e => .error e
      | .ok ls => .ok (leafOfJoined seq r :: ls)

/-- Embedding of `logTreeTX.getLeavesByRangeInternal`. -/
def getLeavesByRangeInternal (st : LogTXState) (start count : Int) :
    Except LogErr (List LogLeaf) :=
  if count ≤ 0 then .error (.invalidCount count)
  else if start < 0 then .error (.invalidStart start)
  else
    match st.treeType with
    | .log =>
      if st.treeSize ≤ 0 then .error .emptyTree
      else if start ≥ st.treeSize then .error (.startBeyondTreeSize start st.treeSize)
      else
        let cnt := if count > st.treeSize - start then st.treeSize - start else count
        scanLeaves st.treeSize (rangeRows st start cnt) start
    | .preorderedLog => scanLeaves st.treeSize (rangeRows st start count) start

/-- Embedding of `logTreeTX.GetLeavesByRange` (mutex aside, a direct call
into the internal function). -/
def getLeavesByRange (st : LogTXState) (start count : Int) :
    Except LogErr (List LogLeaf) :=
  getLeavesByRangeInternal st start count

/-- Ordering `(bucket, queue_timestamp, leaf_identity_hash)` of the dequeue
selection. -/
def unsequencedLe (a b : UnsequencedRow) : Bool :=
  decide (a.bucket < b.bucket) ||
    (decide (a.bucket = b.bucket) &&
      (decide (a.queueTimestampNanos < b.queueTimestampNanos) ||
        (decide (a.queueTimestampNanos = b.queueTimestampNanos) &&
          bytesLe a.leafIdentityHash b.leafIdentityHash)))

/-- Hash length used throughout: `rfc6962.DefaultHasher.Size()` is 32. -/
def hashSizeBytes : Nat := 32

/-- Modelled from the spec: the LOG-tree branch of `DequeueLeaves` (its SQL
and `dequeueLeaf` helper are not under src/): select up to `limit` queued
entries with `queue_timestamp <= cutoff` ordered by `(bucket,
queue_timestamp, leaf_identity_hash)`, reject wrongly-sized hashes, and
drop identity hashes already recorded in the in-transaction memo. -/
def dequeueLogCollect (memo : List Bytes) :
    List UnsequencedRow → Except LogErr (List LogLeaf × List Bytes)
  | [] => .ok ([], memo)
  | q :: rest =>
    if decide (q.leafIdentityHash.length ≠ hashSizeBytes) then .error .dequeuedBadHashSize
    else if memo.any (fun h => decide (h = q.leafIdentityHash)) then
      dequeueLogCollect memo rest
    else
      match dequeueLogCollect (memo ++ [q.leafIdentityHash]) rest with
      | .error e => .error e
      | .ok (ls, memo') =>
        .ok ({ leafIdentityHash := q.leafIdentityHash,
               merkleLeafHash := q.merkleLeafHash,
               queueTimestampNanos := some q.queueTimestampNanos } :: ls, memo')

/-- Embedding of `logTreeTX.DequeueLeaves`: for a `PREORDERED_LOG` tree it
is exactly the ranged scan `getLeavesByRangeInternal(int64(TreeSize),
int64(limit))` and ignores the cutoff; for a `LOG` tree it runs the queue
selection (modelled from the spec). -/
def dequeueLeaves (st : LogTXState) (limit : Int) (cutoffNanos : Int) :
    Except LogErr (List LogLeaf × LogTXState) :=
  match st.treeType with
  | .preorderedLog =>
    match getLeavesByRangeInternal st st.treeSize limit with
    | .error e => .error e
    | .ok ls => .ok (ls, st)
  | .log =>
    let selected :=
      ((st.unsequenced.filter fun q =>
          decide (q.queueTimestampNanos ≤ cutoffNanos)).mergeSort unsequencedLe).take
        limit.toNat
    match dequeueLogCollect st.dequeuedMemo selected with
    | .error e => .error e
    | .ok (ls, memo') => .ok (ls, { st with dequeuedMemo := memo' })

/-- Joined row with value byte v, used in concrete states. -/
def exJRow (v : Nat) : JoinedRow :=
  { merkleLeafHash := [v], leafIdentityHash := [v], leafValue := [v],
    extraData := [], queueTimestampNanos := 0, integrateTimestampNanos := 0 }

/-- A LOG-tree transaction state of size 2 with sequenced rows 0 and 1. -/
def exLogState : LogTXState :=
  { treeType := .log, treeSize := 2,
    seqdb := fun s => if s = 0 then some (exJRow 10) else if s = 1 then some (exJRow 11) else none,
    unsequenced := [], dequeuedMemo := [] }

/-- A LOG-tree transaction state of size 3 whose sequence numbers have a gap
at 1 (0 and 2 are present). -/
def exGapState : LogTXState :=
  { treeType := .log, treeSize := 3,
    seqdb := fun s => if s = 0 then some (exJRow 10) else if s = 2 then some (exJRow 12) else none,
    unsequenced := [], dequeuedMemo := [] }

/-- A PREORDERED_LOG-tree transaction state of size 1 with sequenced rows at
1 and 2 (already assigned beyond the integrated size). -/
def exPreState : LogTXState :=
  { treeType := .preorderedLog, treeSize := 1,
    seqdb := fun s => if s = 1 then some (exJRow 21) else if s = 2 then some (exJRow 22) else none,
    unsequenced := [{ leafIdentityHash := List.replicate 32 9, merkleLeafHash := [9],
                      queueTimestampNanos := 5, bucket := 0 }],
    dequeuedMemo := [] }

/-! ### AddSequencedLeaves -/

/-- Row of the `LeafData` table (`insertLeafDataSQL`). -/
structure LeafDataRow where
  leafIdentityHash : Bytes
  leafValue : Bytes
  extraData : Bytes
  queueTimestampNanos : Int
deriving DecidableEq, Repr

/-- Row of the `SequencedLeafData` table (`insertSequencedLeafSQL`). -/
structure SequencedLeafRow where
  leafIdentityHash : Bytes
  merkleLeafHash : Bytes
  sequenceNumber : Int
  integrateTimestampNanos : Int
deriving DecidableEq, Repr

/-- Modelled from the spec: `LeafData` has the unique key `(TreeId,
LeafIdentityHash)` (one fixed tree here); inserting an existing key reports
the duplicate-key error that `isDuplicateErr` recognises. -/
def insertLeafData (tbl : List LeafDataRow) (row : LeafDataRow) :
    Option (List LeafDataRow) :=
  if tbl.any (fun r => decide (r.leafIdentityHash = row.leafIdentityHash)) then none
  else some (tbl ++ [row])

/-- Modelled from the spec: `SequencedLeafData` has the unique keys
`(TreeId, SequenceNumber)` and `(TreeId, LeafIdentityHash)`; an insert
violating either reports a duplicate-key error. -/
def insertSequencedLeafData (tbl : List SequencedLeafRow) (row : SequencedLeafRow) :
    Option (List SequencedLeafRow) :=
  if tbl.any (fun r => decide (r.sequenceNumber = row.sequenceNumber ∨
      r.leafIdentityHash = row.leafIdentityHash)) then none
  else some (tbl ++ [row])

/-- The two leaf tables a pre-ordered insert touches. -/
structure PreState where
  leafData : List LeafDataRow
  seqLeafData : List SequencedLeafRow
deriving DecidableEq, Repr

/-- Per-leaf status recorded in the `QueuedLogLeaf` result slots of
`AddSequencedLeaves`. -/
inductive QStatus
  | ok
  | failedPreconditionIdHash
  | failedPreconditionLeafIndex
deriving DecidableEq, Repr

/-- The gRPC code each status carries (`conflicting LeafIdentityHash` and
`conflicting LeafIndex` are both FailedPrecondition). -/
def QStatus.code : QStatus → GrpcCode
  | .ok => .ok
  | .failedPreconditionIdHash => .failedPrecondition
  | .failedPreconditionLeafIndex => .failedPrecondition

/-- Batch-aborting errors of `AddSequencedLeaves` (a wrongly sized identity
hash aborts the whole call with FailedPrecondition). -/
inductive AddSeqErr
  | badHashSize (idx got want : Nat)
deriving DecidableEq, Repr

/-- One iteration of the `AddSequencedLeaves` loop body: a savepoint is
taken before the two inserts, the `LeafData` duplicate is reported without
rollback (no side effect happened), and a `SequencedLeafData` conflict
rolls back to the savepoint, discarding the leaf-data insert. -/
def addSeqStep (ts : Int) (st : PreState) (leaf : LogLeaf) : QStatus × PreState :=
  match insertLeafData st.leafData
      { leafIdentityHash := leaf.leafIdentityHash, leafValue := leaf.leafValue,
        extraData := leaf.extraData, queueTimestampNanos := ts } with
  | none => (.failedPreconditionIdHash, st)
  | some ld =>
    match insertSequencedLeafData st.seqLeafData
        { leafIdentityHash := leaf.leafIdentityHash,
          merkleLeafHash := leaf.merkleLeafHash,
          sequenceNumber := leaf.leafIndex, integrateTimestampNanos := 0 } with
    | none => (.failedPreconditionLeafIndex, st)
    | some sd => (.ok, { leafData := ld, seqLeafData := sd })

/-- The loop of `logTreeTX.AddSequencedLeaves` over the hash-sorted batch:
check the hash size, take the per-leaf savepoint, run the two inserts, and
record the status at the original position. -/
def addSeqLoop (ts : Int) :
    PreState → List (Option QStatus) → List leafAndPosition →
    Except AddSeqErr (List (Option QStatus) × PreState)
  | st, res, [] => .ok (res, st)
  | st, res, ol :: rest =>
    if decide (ol.leaf.leafIdentityHash.length ≠ hashSizeBytes) then
      .error (.badHashSize ol.idx ol.leaf.leafIdentityHash.length hashSizeBytes)
    else
      let p := addSeqStep ts st ol.leaf
      addSeqLoop ts p.2 (res.set ol.idx (some p.1)) rest

/-- Embedding of `logTreeTX.AddSequencedLeaves`: sort the batch by identity
hash and run the per-leaf savepoint loop. -/
def addSequencedLeaves (st : PreState) (leaves : List LogLeaf) (ts : Int) :
    Except AddSeqErr (List (Option QStatus) × PreState) :=
  addSeqLoop ts st (List.replicate leaves.length none) (sortLeavesForInsert leaves)

/-- Membership test on the leaf-data table by identity hash. -/
def hashInLeafData (tbl : List LeafDataRow) (h : Bytes) : Bool :=
  tbl.any fun r => decide (r.leafIdentityHash = h)

/-- Conflict test on the sequenced-leaf table: an already-used sequence
number or identity hash. -/
def seqConflict (tbl : List SequencedLeafRow) (leaf : LogLeaf) : Bool :=
  tbl.any fun r => decide (r.sequenceNumber = leaf.leafIndex ∨
    r.leafIdentityHash = leaf.leafIdentityHash)

/-! ### QueueLeaves

Embedding of `logTreeTX.QueueLeaves` and the `mySQLLogStorage.QueueLeaves`
wrapper. -/

/-- The database state the queue path touches: leaf store, sequenced store
(for the integrate-timestamp left join of the duplicate retrieval), and the
`Unsequenced` work queue. -/
structure LogDB where
  leafData : List LeafDataRow
  seqLeafData : List SequencedLeafRow
  unsequenced : List UnsequencedRow
deriving DecidableEq, Repr

/-- Stamping of the queue timestamp onto a leaf (`leaf.QueueTimestamp =
timestamppb.New(queueTimestamp)`); Go mutates the caller leaves through the
shared pointers. -/
def stampLeaf (qts : Int) (l : LogLeaf) : LogLeaf :=
  { l with queueTimestampNanos := some qts }

/-- The `dummyMerkleLeafHash` constant: the 32-character string of ASCII
zero digits returned by `selectLeavesByLeafIdentityHashSQL`. -/
def dummyMerkleLeafHash : Bytes := List.replicate 32 48

/-- How `getLeafDataByIdentityHash` materialises a stored `LeafData` row as
a `LogLeaf`: dummy Merkle hash, `LeafIndex = -1`, and the integrate
timestamp from the `SequencedLeafData` LEFT JOIN (absent when the leaf is
not yet sequenced). -/
def retrievedLeafOfRow (db : LogDB) (r : LeafDataRow) : LogLeaf :=
  { merkleLeafHash := dummyMerkleLeafHash,
    leafIdentityHash := r.leafIdentityHash,
    leafValue := r.leafValue,
    extraData := r.extraData,
    leafIndex := -1,
    queueTimestampNanos := some r.queueTimestampNanos,
    integrateTimestampNanos :=
      (db.seqLeafData.find? fun sr =>
        decide (sr.leafIdentityHash = r.leafIdentityHash)).map
        fun sr => sr.integrateTimestampNanos }

/-- Embedding of `getLeafDataByIdentityHash`: the rows whose identity hash
occurs in the (deduplicated) lookup list, in table order. -/
def getLeafDataByIdentityHash (db : LogDB) (hashes : List Bytes) : List LogLeaf :=
  (db.leafData.filter fun r =>
    hashes.any fun h => decide (h = r.leafIdentityHash)).map (retrievedLeafOfRow db)

/-- Errors of the queue path. -/
inductive QueueErr
  | invalidLeafHash
  | badMerkleHashLength
  | retrieveCountMismatch (got want : Nat)
  | missingExistingLeaf (h : Bytes)
deriving DecidableEq, Repr

/-- The scanned-hash length check of `getLeavesByHashInternal` applied to
the retrieval result. -/
def getLeavesByIdentityHashChecked (db : LogDB) (hashes : List Bytes) :
    Except QueueErr (List LogLeaf) :=
  let ls := getLeafDataByIdentityHash db hashes
  if ls.all (fun l => decide (l.merkleLeafHash.length = hashSizeBytes)) then .ok ls
  else .error .badMerkleHashLength

/-- The dedup pass over `existingLeaves` that builds `toRetrieve`
(`uniqueLeafMap` in the Go code): hashes of the duplicate slots, first
occurrence kept, repeats dropped. -/
def buildToRetrieveAux (seen : List Bytes) :
    List (Option LogLeaf) → List Bytes
  | [] => []
  | none :: rest => buildToRetrieveAux seen rest
  | some l :: rest =>
    if seen.any (fun h => decide (h = l.leafIdentityHash)) then
      buildToRetrieveAux seen rest
    else
      l.leafIdentityHash :: buildToRetrieveAux (l.leafIdentityHash :: seen) rest

/-- The deduplicated lookup list of existing identity hashes. -/
def buildToRetrieve (existing : List (Option LogLeaf)) : List Bytes :=
  buildToRetrieveAux [] existing

/-- The replacement pass of `QueueLeaves`: each duplicate slot is replaced
by the first retrieved row with the same identity hash; a hash with no
retrieved row is an error. -/
def replaceExisting (results : List LogLeaf) :
    List (Option LogLeaf) → Except QueueErr (List (Option LogLeaf))
  | [] => .ok []
  | none :: rest =>
    match replaceExisting results rest with
    | .error e => .error e
    | .ok ex => .ok (none :: ex)
  | some req :: rest =>
    match results.find? (fun r =>
        decide (r.leafIdentityHash = req.leafIdentityHash)) with
    | none => .error (.missingExistingLeaf req.leafIdentityHash)
    | some r =>
      match replaceExisting results rest with
      | .error e => .error e
      | .ok ex => .ok (some r :: ex)

/-- The insertion loop of `logTreeTX.QueueLeaves` over the hash-sorted
batch: a duplicate leaf-data insert records the requested leaf in the
`existingLeaves` slot of its original position; a fresh insert also appends
the work-queue entry (bucket 0, `queueArgs`). -/
def queueLoop : LogDB → List (Option LogLeaf) → List leafAndPosition →
    LogDB × List (Option LogLeaf)
  | db, existing, [] => (db, existing)
  | db, existing, ol :: rest =>
    match insertLeafData db.leafData
        { leafIdentityHash := ol.leaf.leafIdentityHash,
          leafValue := ol.leaf.leafValue, extraData := ol.leaf.extraData,
          queueTimestampNanos := ol.leaf.queueTimestampNanos.getD 0 } with
    | none => queueLoop db (existing.set ol.idx (some ol.leaf)) rest
    | some ld =>
      queueLoop
        { db with
          leafData := ld
          unsequenced := db.unsequenced ++
            [{ leafIdentityHash := ol.leaf.leafIdentityHash,
               merkleLeafHash := ol.leaf.merkleLeafHash,
               queueTimestampNanos := ol.leaf.queueTimestampNanos.getD 0,
               bucket := 0 }] }
        existing rest

/-- Embedding of `logTreeTX.QueueLeaves`: validate hash lengths, stamp the
queue timestamp, insert in sorted order, then retrieve the canonical rows
for the duplicate positions (deduplicating the lookup list) and substitute
them. -/
def queueLeavesTX (db : LogDB) (leaves : List LogLeaf) (queueTimestamp : Int) :
    Except QueueErr (List (Option LogLeaf) × LogDB) :=
  if leaves.all (fun l => decide (l.leafIdentityHash.length = hashSizeBytes)) then
    let stamped := leaves.map (stampLeaf queueTimestamp)
    let p := queueLoop db (List.replicate leaves.length none)
      (sortLeavesForInsert stamped)
    if p.2.all (fun e => e.isNone) then .ok (p.2, p.1)
    else
      let toRetrieve := buildToRetrieve p.2
      match getLeavesByIdentityHashChecked p.1 toRetrieve with
      | .error e => .error e
      | .ok results =>
        if results.length = toRetrieve.length then
          match replaceExisting results p.2 with
          | .error e => .error e
          | .ok ex2 => .ok (ex2, p.1)
        else .error (.retrieveCountMismatch results.length toRetrieve.length)
  else .error .invalidLeafHash

/-- Per-position result of the storage-level `QueueLeaves`: either the leaf
as queued, or the canonical existing leaf annotated ALREADY_EXISTS. -/
inductive QueuedLogLeaf
  | queued (leaf : LogLeaf)
  | alreadyExists (leaf : LogLeaf)
deriving DecidableEq, Repr

/-- Embedding of `mySQLLogStorage.QueueLeaves`: run the transaction-level
insert, then build one `QueuedLogLeaf` per input position — the canonical
existing leaf with an ALREADY_EXISTS status for duplicate slots, the
(stamped) caller leaf otherwise. -/
def queueLeaves (db : LogDB) (leaves : List LogLeaf) (queueTimestamp : Int) :
    Except QueueErr (List QueuedLogLeaf × LogDB) :=
  match queueLeavesTX db leaves queueTimestamp with
  | .error e => .error e
  | .ok (existing, db2) =>
    .ok ((existing.zip (leaves.map (stampLeaf queueTimestamp))).map fun p =>
      match p.1 with
      | some e => .alreadyExists e
      | none => .queued p.2, db2)

/-- Whether an earlier position of the batch carries the same identity hash
(the batch-internal duplicate condition; under the stable sort the earlier
occurrence is inserted first). -/
def dupInBatchBefore (leaves : List LogLeaf) (i : Nat) : Bool :=
  (List.range i).any fun j =>
    decide ((leaves.getD j default).leafIdentityHash =
      (leaves.getD i default).leafIdentityHash)

/-- The full duplicate condition for position i: the identity hash is
already stored in the leaf table, or an earlier batch position repeats it. -/
def dupCondition (tbl : List LeafDataRow) (leaves : List LogLeaf) (i : Nat) : Bool :=
  hashInLeafData tbl (leaves.getD i default).leafIdentityHash ||
    dupInBatchBefore leaves i

/-- A 32-byte identity hash ending in byte v. -/
def exHash (v : Nat) : Bytes := List.replicate 31 0 ++ [v]

/-- Queue-path database holding one stored leaf with hash `exHash 1`. -/
def exQueueDB : LogDB :=
  { leafData := [{ leafIdentityHash := exHash 1, leafValue := [10], extraData := [],
                   queueTimestampNanos := 5 }],
    seqLeafData := [], unsequenced := [] }

/-- Batch leaf whose hash collides with the stored row. -/
def exLeafA : LogLeaf := { leafIdentityHash := exHash 1, leafValue := [11] }

/-- Batch leaf with a fresh hash. -/
def exLeafB : LogLeaf := { leafIdentityHash := exHash 2, leafValue := [12] }

theorem bytesLt_irrefl : ∀ a : Bytes, bytesLt a a = false := by
  intro a
  induction a with
  | nil => rfl
  | cons x xs ih => simp [bytesLt, ih]

theorem bytesLt_asymm : ∀ a b : Bytes, bytesLt a b = true → bytesLt b a = false := by
  intro a
  induction a with
  | nil => intro b h; cases b <;> simp_all [bytesLt]
  | cons x xs ih =>
    intro b h
    cases b with
    | nil => simp_all [bytesLt]
    | cons y ys =>
      simp only [bytesLt] at h ⊢
      by_cases hxy : x < y
      · have : ¬ y < x := by omega
        simp [hxy, this] at h ⊢
      · by_cases hyx : y < x
        · simp [hxy, hyx] at h
        · simp [hxy, hyx] at h ⊢
          exact ih ys h

theorem bytesLt_cons_iff {x y : Nat} {xs ys : Bytes} :
    bytesLt (x :: xs) (y :: ys) = true ↔ x < y ∨ (x = y ∧ bytesLt xs ys = true) := by
  simp only [bytesLt]
  by_cases hxy : x < y
  · simp [hxy]
  · by_cases hyx : y < x
    · simp [hxy, hyx]; omega
    · have : x = y := by omega
      simp [hxy, hyx, this]

theorem bytesLt_split : ∀ a c : Bytes, bytesLt a c = true →
    ∀ b : Bytes, bytesLt a b = true ∨ bytesLt b c = true := by
  intro a
  induction a with
  | nil =>
    intro c hc b
    cases c with
    | nil => simp [bytesLt] at hc
    | cons z zs =>
      cases b with
      | nil => right; simp [bytesLt]
      | cons w ws => left; simp [bytesLt]
  | cons x xs ih =>
    intro c hc b
    cases c with
    | nil => simp [bytesLt] at hc
    | cons z zs =>
      cases b with
      | nil => right; simp [bytesLt]
      | cons w ws =>
        rw [bytesLt_cons_iff] at hc
        rw [bytesLt_cons_iff, bytesLt_cons_iff]
        rcases hc with hxz | ⟨hxz, hrec⟩
        · by_cases hxw : x < w
          · left; left; exact hxw
          · right; left; omega
        · by_cases hxw : x < w
          · left; left; exact hxw
          · by_cases hwx : w < x
            · right; left; omega
            · have hxweq : x = w := by omega
              rcases ih zs hrec ws with h | h
              · left; right; exact ⟨hxweq, h⟩
              · right; right; exact ⟨by omega, h⟩

theorem bytesLe_trans : ∀ a b c : Bytes,
    bytesLe a b = true → bytesLe b c = true → bytesLe a c = true := by
  intro a b c hab hbc
  simp only [bytesLe, Bool.not_eq_true'] at hab hbc ⊢
  by_contra h
  simp only [Bool.not_eq_false] at h
  rcases bytesLt_split c a h b with h1 | h1
  · rw [h1] at hbc; cases hbc
  · rw [h1] at hab; cases hab

theorem bytesLe_total : ∀ a b : Bytes, bytesLe a b || bytesLe b a := by
  intro a b
  simp only [bytesLe]
  by_cases h : bytesLt b a = true
  · have := bytesLt_asymm _ _ h
    simp [this]
  · simp [Bool.not_eq_true] at h
    simp [h]

theorem bytesLe_antisymm : ∀ a b : Bytes,
    bytesLe a b = true → bytesLe b a = true → a = b := by
  intro a
  induction a with
  | nil =>
    intro b h1 h2
    cases b with
    | nil => rfl
    | cons y ys => simp [bytesLe, bytesLt] at h2
  | cons x xs ih =>
    intro b h1 h2
    cases b with
    | nil => simp [bytesLe, bytesLt] at h1
    | cons y ys =>
      simp only [bytesLe, bytesLt, Bool.not_eq_true'] at h1 h2
      by_cases hxy : x < y
      · simp [hxy] at h2
      · by_cases hyx : y < x
        · simp [hyx, hxy] at h1
        · have hxyeq : x = y := by omega
          simp only [hxy, hyx, if_neg, if_false] at h1 h2
          have := ih ys (by simp [bytesLe, h1]) (by simp [bytesLe, h2])
          rw [hxyeq, this]

theorem byLeafIdentityHashLe_trans : ∀ a b c : leafAndPosition,
    byLeafIdentityHashLe a b → byLeafIdentityHashLe b c → byLeafIdentityHashLe a c := by
  intro a b c h1 h2
  exact bytesLe_trans _ _ _ h1 h2

theorem byLeafIdentityHashLe_total : ∀ a b : leafAndPosition,
    byLeafIdentityHashLe a b || byLeafIdentityHashLe b a := by
  intro a b
  exact bytesLe_total _ _

theorem sortLeavesForInsert_perm (leaves : List LogLeaf) :
    (sortLeavesForInsert leaves).Perm (enumeratedLeaves leaves) :=
  List.mergeSort_perm _ _

theorem sortLeavesForInsert_sorted (leaves : List LogLeaf) :
    (sortLeavesForInsert leaves).Pairwise (byLeafIdentityHashLe · ·) :=
  List.sorted_mergeSort byLeafIdentityHashLe_trans byLeafIdentityHashLe_total _

theorem mem_enumeratedLeaves {leaves : List LogLeaf} {p : leafAndPosition} :
    p ∈ enumeratedLeaves leaves ↔ leaves[p.idx]? = some p.leaf := by
  unfold enumeratedLeaves
  constructor
  · intro h
    rcases List.mem_map.1 h with ⟨⟨i, l⟩, hm, he⟩
    have := (List.mk_mem_enumFrom_iff_le_and_getElem?_sub (n := 0)).1 hm
    cases he
    simpa using this.2
  · intro h
    refine List.mem_map.2 ⟨(p.idx, p.leaf), ?_, rfl⟩
    exact (List.mk_mem_enumFrom_iff_le_and_getElem?_sub (n := 0)).2 ⟨Nat.zero_le _, by simpa using h⟩

theorem mem_sortLeavesForInsert {leaves : List LogLeaf} {p : leafAndPosition} :
    p ∈ sortLeavesForInsert leaves ↔ leaves[p.idx]? = some p.leaf := by
  rw [← mem_enumeratedLeaves]
  exact (sortLeavesForInsert_perm leaves).mem_iff

/-- C5: `sortLeavesForInsert` returns the input batch as a permutation sorted
in ascending bytewise `LeafIdentityHash` order, each element remembering its
original position, and the recorded positions are exactly the positions of
the input batch.  `QueueLeaves` and `AddSequencedLeaves` (below) perform
their inserts by iterating this list and write each result slot at the
remembered original position. -/
theorem sortLeavesForInsert_sorted_perm_positions (leaves : List LogLeaf) :
    ((sortLeavesForInsert leaves).map (fun p => p.leaf)).Perm leaves ∧
    (sortLeavesForInsert leaves).Pairwise
      (fun a b => bytesLe a.leaf.leafIdentityHash b.leaf.leafIdentityHash = true) ∧
    (∀ p ∈ sortLeavesForInsert leaves, leaves[p.idx]? = some p.leaf) ∧
    ((sortLeavesForInsert leaves).map (fun p => p.idx)).Perm (List.range leaves.length) := by
  refine ⟨?_, ?_, ?_, ?_⟩
  · have h := (sortLeavesForInsert_perm leaves).map (fun p => p.leaf)
    refine h.trans ?_
    unfold enumeratedLeaves
    rw [List.map_map]
    have he : ((fun p => p.leaf) ∘ fun p : Nat × LogLeaf => leafAndPosition.mk p.2 p.1) =
        Prod.snd := rfl
    rw [he, List.enum_map_snd]
  · have h := sortLeavesForInsert_sorted leaves
    exact h.imp (fun hab => hab)
  · intro p hp
    exact mem_sortLeavesForInsert.1 hp
  · have h := (sortLeavesForInsert_perm leaves).map (fun p => p.idx)
    refine h.trans ?_
    unfold enumeratedLeaves
    rw [List.map_map]
    have he : ((fun p => p.idx) ∘ fun p : Nat × LogLeaf => leafAndPosition.mk p.2 p.1) =
        Prod.fst := rfl
    rw [he, List.enum_map_fst]

/-- Concrete check of the C5 theorem on a two-leaf batch supplied in
descending hash order. -/
theorem sortLeavesForInsert_sorted_perm_positions_witness :
    (((sortLeavesForInsert [{ leafIdentityHash := [2] }, { leafIdentityHash := [1] }]).map
        (fun p => p.leaf)).Perm
      [{ leafIdentityHash := [2] }, { leafIdentityHash := [1] }]) ∧
    (sortLeavesForInsert [{ leafIdentityHash := [2] }, { leafIdentityHash := [1] }]).Pairwise
      (fun a b => bytesLe a.leaf.leafIdentityHash b.leaf.leafIdentityHash = true) := by
  have h := sortLeavesForInsert_sorted_perm_positions
    [{ leafIdentityHash := [2] }, { leafIdentityHash := [1] }]
  exact ⟨h.1, h.2.1⟩

/-- C7: for every tree id, `SoftDeleteTree` on an already-soft-deleted tree,
and `UndeleteTree` / `HardDeleteTree` on a tree that is not soft-deleted,
fail with failed-precondition errors, and all three fail with a not-found
error when no tree with that id exists. -/
theorem deleteTree_state_errors (db : AdminDB) (treeID : Int) (nowMillis : Int) :
    (treesFind db treeID = none →
      softDeleteTree db treeID nowMillis = .error .notFound ∧
      undeleteTree db treeID = .error .notFound ∧
      hardDeleteTree db treeID = .error .notFound) ∧
    (∀ r, treesFind db treeID = some r →
      (rowDeleted r = true →
        softDeleteTree db treeID nowMillis = .error .alreadySoftDeleted) ∧
      (rowDeleted r = false →
        undeleteTree db treeID = .error .notSoftDeleted ∧
        hardDeleteTree db treeID = .error .notSoftDeleted)) ∧
    AdminErr.notFound.code = .notFound ∧
    AdminErr.alreadySoftDeleted.code = .failedPrecondition ∧
    AdminErr.notSoftDeleted.code = .failedPrecondition := by
  refine ⟨?_, ?_, rfl, rfl, rfl⟩
  · intro hnone
    refine ⟨?_, ?_, ?_⟩ <;>
      simp [softDeleteTree, undeleteTree, hardDeleteTree, updateDeleted, validateDeleted, hnone]
  · intro r hfind
    constructor
    · intro hdel
      simp [softDeleteTree, updateDeleted, validateDeleted, hfind, hdel]
    · intro hdel
      constructor
      · simp [undeleteTree, updateDeleted, validateDeleted, hfind, hdel]
      · simp [hardDeleteTree, validateDeleted, hfind, hdel]

/-- Concrete check of C7: a database with a single non-deleted tree 5 and no
tree 6. -/
theorem deleteTree_state_errors_witness :
    undeleteTree exAdminDB5 5 = .error .notSoftDeleted ∧
    softDeleteTree exAdminDB5 6 3 = .error .notFound := by
  constructor
  · exact (((deleteTree_state_errors exAdminDB5 5 3).2.1 exTreesRow5
      (by decide)).2 (by decide)).1
  · exact ((deleteTree_state_errors exAdminDB5 6 3).1 (by decide)).1

/-- C6 counterexample: on `exAdminDB`, `HardDeleteTree` succeeds, removes the
`Trees` and `TreeControl` rows, but the `TreeHead` row of tree 7 is still
present afterwards — the code issues no DELETE against `TreeHead`, so the
claim that tree-head rows are deleted explicitly (independently of any
foreign-key cascade) is false. -/
theorem hardDeleteTree_keeps_treeHead_rows :
    hardDeleteTree exAdminDB 7 =
      .ok { trees := [], treeControl := [],
            treeHead := [{ treeId := 7, treeHeadTimestamp := 100, treeSize := 3,
                           rootHash := [5], treeRevision := 1, rootSignature := [] }] } ∧
    (exAdminDB.treeHead.filter fun r => decide (r.treeId = 7)) ≠ [] := by
  constructor
  · rfl
  · decide

/-- C6 (amended): for every soft-deleted tree, `HardDeleteTree` explicitly
deletes the tree-control rows of that tree in addition to the tree row
itself, while the tree-head rows are left untouched by the statements the
code issues (their removal, if any, is left to foreign-key cascades). -/
theorem hardDeleteTree_deletes_control_and_tree_only
    (db : AdminDB) (treeID : Int) (db' : AdminDB)
    (h : hardDeleteTree db treeID = .ok db') :
    db'.treeControl = db.treeControl.filter (fun r => decide (r.treeId ≠ treeID)) ∧
    db'.trees = db.trees.filter (fun r => decide (r.treeId ≠ treeID)) ∧
    db'.treeHead = db.treeHead := by
  unfold hardDeleteTree at h
  cases hv : validateDeleted db treeID true with
  | error e => rw [hv] at h; cases h
  | ok u =>
    rw [hv] at h
    cases h
    exact ⟨rfl, rfl, rfl⟩

/-- Concrete check of the amended C6 theorem on `exAdminDB`. -/
theorem hardDeleteTree_deletes_control_and_tree_only_witness :
    ([] : List TreeControlRow) =
        exAdminDB.treeControl.filter (fun r => decide (r.treeId ≠ 7)) ∧
    ([] : List TreesRow) = exAdminDB.trees.filter (fun r => decide (r.treeId ≠ 7)) ∧
    exAdminDB.treeHead =
      [{ treeId := 7, treeHeadTimestamp := 100, treeSize := 3,
         rootHash := [5], treeRevision := 1, rootSignature := [] }] := by
  have h := hardDeleteTree_deletes_control_and_tree_only exAdminDB 7
    { trees := [], treeControl := [],
      treeHead := [{ treeId := 7, treeHeadTimestamp := 100, treeSize := 3,
                     rootHash := [5], treeRevision := 1, rootSignature := [] }] } (by rfl)
  exact ⟨h.1, h.2.1, h.2.2⟩

/-- C10: for every database, mutator and validator, a successful `UpdateTree`
leaves the stored `PublicKey` column (which holds the storage settings
written at `CreateTree`) byte-for-byte unchanged on every row, and likewise
the `TreeId`, `CreateTimeMillis`, `Deleted` and `DeleteTimeMillis` columns:
the update statement rewrites only the state, type, display name,
description, update time, max-root-duration and private-key columns. -/
theorem updateTree_preserves_storage_settings
    (db : AdminDB) (treeID : Int) (updateFunc : TrillianTree → TrillianTree)
    (validateUpdate : TrillianTree → TrillianTree → Bool) (nowMillis : Int)
    (db' : AdminDB) (t : TrillianTree)
    (h : updateTree db treeID updateFunc validateUpdate nowMillis = .ok (db', t)) :
    db'.trees.map (fun r => r.publicKey) = db.trees.map (fun r => r.publicKey) ∧
    db'.trees.map (fun r => r.treeId) = db.trees.map (fun r => r.treeId) ∧
    db'.trees.map (fun r => r.createTimeMillis) =
      db.trees.map (fun r => r.createTimeMillis) ∧
    db'.trees.map (fun r => r.deleted) = db.trees.map (fun r => r.deleted) ∧
    db'.trees.map (fun r => r.deleteTimeMillis) =
      db.trees.map (fun r => r.deleteTimeMillis) := by
  unfold updateTree at h
  cases hg : getTree db treeID with
  | error e => rw [hg] at h; cases h
  | ok row =>
    rw [hg] at h
    simp only at h
    by_cases hv : validateUpdate (readTree row) (updateFunc (readTree row)) = true
    · rw [if_pos hv] at h
      cases h
      refine ⟨?_, ?_, ?_, ?_, ?_⟩ <;>
        · simp only [List.map_map]
          refine List.map_congr_left ?_
          intro r _
          by_cases hr : r.treeId = treeID <;> simp [hr]
    · rw [if_neg hv] at h
      cases h

/-- Concrete check of C10: updating tree 5 of `exAdminDB5` with a mutator
that renames it keeps the stored settings bytes `[7]` in place. -/
theorem updateTree_preserves_storage_settings_witness :
    updateTree exAdminDB5 5 (fun tr => { tr with displayName := "renamed" })
        (fun _ _ => true) 4 = .ok (exAdminDB5After, exTreeAfter) ∧
    exAdminDB5After.trees.map (fun r => r.publicKey) =
      exAdminDB5.trees.map (fun r => r.publicKey) := by
  have he : updateTree exAdminDB5 5 (fun tr => { tr with displayName := "renamed" })
      (fun _ _ => true) 4 = .ok (exAdminDB5After, exTreeAfter) := by rfl
  exact ⟨he, (updateTree_preserves_storage_settings exAdminDB5 5
    (fun tr => { tr with displayName := "renamed" }) (fun _ _ => true) 4
    exAdminDB5After exTreeAfter he).1⟩

/-- C1 counterexample: with current head timestamp 10, storing a root whose
`timestamp_nanos` is 3 (not greater than the current value) SUCCEEDS: the
code performs no timestamp or tree-size comparison against the current
root, so the claimed if-and-only-if condition is false at this input. -/
theorem storeSignedLogRoot_accepts_stale_timestamp :
    storeSignedLogRoot 1 exHeads 2 exStaleRoot =
      .ok (exHeads ++
        [{ treeId := 1, treeHeadTimestamp := 3, treeSize := 5, rootHash := [2],
           treeRevision := 2, rootSignature := [] }]) ∧
    (latestRoot 1 exHeads).map (fun r => r.treeHeadTimestamp) = some 10 ∧
    ¬ (exStaleRoot.timestampNanos > 10) := by
  refine ⟨rfl, rfl, by decide⟩

/-- C1 (amended): a call to `StoreSignedLogRoot` succeeds iff the supplied
root parses, carries no metadata, and no tree-head row of this tree already
exists at the write revision of the transaction; on success the row is
stored at the write revision.  No comparison against the current tree size
or timestamp is made, and a root identical to the current one is stored as
an additional row at the new revision rather than treated as a no-op. -/
theorem storeSignedLogRoot_ok_iff (treeID : Int) (heads : List TreeHeadRow)
    (writeRevision : Int) (root : LogRootV1) :
    ((storeSignedLogRoot treeID heads writeRevision root).isOk = true ↔
      root.metadata = [] ∧
      ∀ r ∈ heads, ¬ (r.treeId = treeID ∧ r.treeRevision = writeRevision)) ∧
    (root.metadata = [] →
      (∀ r ∈ heads, ¬ (r.treeId = treeID ∧ r.treeRevision = writeRevision)) →
      storeSignedLogRoot treeID heads writeRevision root =
        .ok (heads ++
          [{ treeId := treeID, treeHeadTimestamp := root.timestampNanos,
             treeSize := root.treeSize, rootHash := root.rootHash,
             treeRevision := writeRevision, rootSignature := [] }])) := by
  constructor
  · constructor
    · intro h
      unfold storeSignedLogRoot at h
      by_cases hm : root.metadata = []
      · refine ⟨hm, ?_⟩
        rw [if_neg (by simp [hm])] at h
        cases hi : insertTreeHead heads
            { treeId := treeID, treeHeadTimestamp := root.timestampNanos,
              treeSize := root.treeSize, rootHash := root.rootHash,
              treeRevision := writeRevision, rootSignature := [] } with
        | none => rw [hi] at h; simp [Except.isOk, Except.toBool] at h
        | some hs =>
          unfold insertTreeHead at hi
          intro r hr hc
          by_cases ha : heads.any (fun r => decide (r.treeId = treeID ∧
              r.treeRevision = writeRevision)) = true
          · rw [if_pos (by simpa using ha)] at hi; cases hi
          · exact ha (List.any_eq_true.2 ⟨r, hr, by simpa using hc⟩)
      · rw [if_pos (by simp [hm])] at h
        simp [Except.isOk, Except.toBool] at h
    · rintro ⟨hm, hno⟩
      unfold storeSignedLogRoot insertTreeHead
      rw [if_neg (by simp [hm])]
      rw [if_neg ?hna]
      · simp [Except.isOk, Except.toBool]
      case hna =>
        intro ha
        rcases List.any_eq_true.1 ha with ⟨r, hr, hc⟩
        exact hno r hr (by simpa using hc)
  · intro hm hno
    unfold storeSignedLogRoot insertTreeHead
    rw [if_neg (by simp [hm])]
    rw [if_neg ?hnb]
    case hnb =>
      intro ha
      rcases List.any_eq_true.1 ha with ⟨r, hr, hc⟩
      exact hno r hr (by simpa using hc)

/-- Concrete check of the amended C1 theorem: the stale-timestamp store on
`exHeads` is accepted because the metadata is empty and revision 2 is free. -/
theorem storeSignedLogRoot_ok_iff_witness :
    (storeSignedLogRoot 1 exHeads 2 exStaleRoot).isOk = true := by
  exact ((storeSignedLogRoot_ok_iff 1 exHeads 2 exStaleRoot).1).2
    ⟨rfl, by decide⟩

/-- C8: `GetTokens` fails with the too-many-unsequenced-rows error whenever
some spec is Global/Write and `backlog + n > max_unsequenced_rows`; a call
whose specs are all of other scopes never fails; and `PutTokens` and
`ResetQuota` always return success with the state unchanged. -/
theorem quota_getTokens_putTokens_resetQuota (st : QuotaState)
    (maxUnsequencedRows numTokens : Nat) (specs : List QuotaSpec) :
    ((∃ s ∈ specs, s.group = .global ∧ s.kind = .write) →
      st.unsequencedCount + numTokens > maxUnsequencedRows →
      getTokens st maxUnsequencedRows numTokens specs =
        .error .tooManyUnsequencedRows) ∧
    ((∀ s ∈ specs, ¬ (s.group = .global ∧ s.kind = .write)) →
      getTokens st maxUnsequencedRows numTokens specs = .ok ()) ∧
    putTokens st numTokens specs = .ok ((), st) ∧
    resetQuota st specs = .ok ((), st) := by
  refine ⟨?_, ?_, rfl, rfl⟩
  · rintro ⟨s, hs, hg⟩ hover
    unfold getTokens
    rw [if_pos]
    rw [Bool.and_eq_true]
    exact ⟨List.any_eq_true.2 ⟨s, hs, by simpa using hg⟩, by simpa using hover⟩
  · intro hnone
    unfold getTokens
    rw [if_neg]
    rw [Bool.and_eq_true]
    rintro ⟨ha, -⟩
    rcases List.any_eq_true.1 ha with ⟨s, hs, hg⟩
    exact hnone s hs (by simpa using hg)

/-- Concrete check of C8, following scenario S3 of the spec: with a backlog
of 19 rows and a ceiling of 20, asking 2 Global/Write tokens is denied,
asking 1 is granted. -/
theorem quota_getTokens_putTokens_resetQuota_witness :
    getTokens { unsequencedCount := 19 } 20 2 [{ group := .global, kind := .write }] =
      .error .tooManyUnsequencedRows ∧
    getTokens { unsequencedCount := 19 } 20 1 [{ group := .global, kind := .write }] =
      .ok () ∧
    putTokens { unsequencedCount := 19 } 2 [{ group := .global, kind := .write }] =
      .ok ((), { unsequencedCount := 19 }) := by
  refine ⟨?_, by rfl, ?_⟩
  · exact (quota_getTokens_putTokens_resetQuota { unsequencedCount := 19 } 20 2
      [{ group := .global, kind := .write }]).1
      ⟨{ group := .global, kind := .write }, by decide, by decide, by decide⟩
      (by decide)
  · exact (quota_getTokens_putTokens_resetQuota { unsequencedCount := 19 } 20 2
      [{ group := .global, kind := .write }]).2.2.1

theorem mem_rangeRowsN {seqdb : Int → Option JoinedRow} :
    ∀ {n : Nat} {a : Int} {p : Int × JoinedRow},
      p ∈ rangeRowsN seqdb a n ↔ a ≤ p.1 ∧ p.1 < a + n ∧ seqdb p.1 = some p.2 := by
  intro n
  induction n with
  | zero => intro a p; simp [rangeRowsN]; omega
  | succ n ih =>
    intro a p
    unfold rangeRowsN
    cases hs : seqdb a with
    | some r =>
      simp only [List.mem_cons, ih]
      constructor
      · rintro (rfl | ⟨h1, h2, h3⟩)
        · exact ⟨le_refl _, by omega, hs⟩
        · exact ⟨by omega, by omega, h3⟩
      · rintro ⟨h1, h2, h3⟩
        by_cases hpa : p.1 = a
        · left
          have : p.2 = r := by rw [hpa] at h3; rw [hs] at h3; exact (Option.some_inj.1 h3).symm
          cases p; simp_all
        · right; exact ⟨by omega, by omega, h3⟩
    | none =>
      rw [ih]
      constructor
      · rintro ⟨h1, h2, h3⟩; exact ⟨by omega, by omega, h3⟩
      · rintro ⟨h1, h2, h3⟩
        by_cases hpa : p.1 = a
        · rw [hpa, hs] at h3; cases h3
        · exact ⟨by omega, by omega, h3⟩

theorem scanLeaves_dense :
    ∀ (rows : List (Int × JoinedRow)) (ts w : Int) (ls : List LogLeaf),
      scanLeaves ts rows w = .ok ls →
      ∀ k, (hk : k < ls.length) → (ls.get ⟨k, hk⟩).leafIndex = w + k := by
  intro rows
  induction rows with
  | nil =>
    intro ts w ls h k hk
    unfold scanLeaves at h
    cases h
    simp at hk
  | cons p rest ih =>
    intro ts w ls h k hk
    unfold scanLeaves at h
    by_cases hne : p.1 ≠ w
    · rw [if_pos hne] at h
      by_cases hlt : w < ts
      · rw [if_pos hlt] at h; cases h
      · rw [if_neg hlt] at h
        cases h
        simp at hk
    · rw [if_neg hne] at h
      push_neg at hne
      cases hr : scanLeaves ts rest (w + 1) with
      | error e => rw [hr] at h; cases h
      | ok ls' =>
        rw [hr] at h
        cases h
        cases k with
        | zero => simp [leafOfJoined, hne]
        | succ k =>
          have hk' : k < ls'.length := by simpa using hk
          have := ih ts (w + 1) ls' hr k hk'
          simp only [List.get_cons_succ]
          rw [this]
          push_cast
          ring

theorem rangeRowsN_succ_none {seqdb : Int → Option JoinedRow} {a : Int} {n : Nat}
    (hs : seqdb a = none) :
    rangeRowsN seqdb a (n + 1) = rangeRowsN seqdb (a + 1) n := by
  have h1 : rangeRowsN seqdb a (n + 1) =
      (match seqdb a with
       | some r => (a, r) :: rangeRowsN seqdb (a + 1) n
       | none => rangeRowsN seqdb (a + 1) n) := rfl
  rw [h1, hs]

theorem rangeRowsN_succ_some {seqdb : Int → Option JoinedRow} {a : Int} {n : Nat}
    {r : JoinedRow} (hs : seqdb a = some r) :
    rangeRowsN seqdb a (n + 1) = (a, r) :: rangeRowsN seqdb (a + 1) n := by
  have h1 : rangeRowsN seqdb a (n + 1) =
      (match seqdb a with
       | some r2 => (a, r2) :: rangeRowsN seqdb (a + 1) n
       | none => rangeRowsN seqdb (a + 1) n) := rfl
  rw [h1, hs]

theorem scanLeaves_gap_error (seqdb : Int → Option JoinedRow) :
    ∀ (n : Nat) (a ts g w2 : Int),
      a ≤ g → g < w2 → w2 < a + n → seqdb g = none → (seqdb w2).isSome →
      g < ts →
      ∃ e, scanLeaves ts (rangeRowsN seqdb a n) a = .error e ∧
        LogErr.code e = .internal := by
  intro n
  induction n with
  | zero => intro a ts g w2 h1 h2 h3; omega
  | succ n ih =>
    intro a ts g w2 h1 h2 h3 hg hw2 hts
    cases hs : seqdb a with
    | none =>
      rw [rangeRowsN_succ_none hs]
      have hga : a < ts := by omega
      cases hr : rangeRowsN seqdb (a + 1) n with
      | nil =>
        exfalso
        cases hv : seqdb w2 with
        | none => rw [hv] at hw2; cases hw2
        | some r =>
          have : (w2, r) ∈ rangeRowsN seqdb (a + 1) n := by
            rw [mem_rangeRowsN]
            refine ⟨?_, ?_, hv⟩
            · by_cases hwa : w2 = a
              · rw [hwa] at hv; rw [hs] at hv; cases hv
              · omega
            · omega
          rw [hr] at this
          cases this
      | cons q qs =>
        have hq : q ∈ rangeRowsN seqdb (a + 1) n := by rw [hr]; exact List.mem_cons_self _ _
        have hqb := mem_rangeRowsN.1 hq
        refine ⟨.unexpectedIndex q.1 a, ?_, rfl⟩
        cases q with
        | mk s r =>
          unfold scanLeaves
          rw [if_pos (by simp at hqb ⊢; omega)]
          rw [if_pos hga]
    | some r =>
      rw [rangeRowsN_succ_some hs]
      have hgne : g ≠ a := by
        intro he
        rw [he, hs] at hg
        cases hg
      rcases ih (a + 1) ts g w2 (by omega) h2 (by omega) hg hw2 hts with ⟨e, he, hc⟩
      refine ⟨e, ?_, hc⟩
      unfold scanLeaves
      rw [if_neg (by simp)]
      rw [he]

/-- C3: `GetLeavesByRange(start, count)` rejects `count <= 0` and `start < 0`
as invalid arguments; for a `LOG` tree it rejects `start >= tree_size`
(out-of-range) and clips `count` to `tree_size - start`; returned rows are
densely numbered starting at `start`; and a gap below `tree_size` (an
absent sequence number followed by a present one inside the queried window)
is reported as an integrity (internal) error rather than returned. -/
theorem getLeavesByRange_validation_and_density (st : LogTXState) (start count : Int) :
    (count ≤ 0 →
      getLeavesByRange st start count = .error (.invalidCount count) ∧
      (LogErr.invalidCount count).code = .invalidArgument) ∧
    (count > 0 → start < 0 →
      getLeavesByRange st start count = .error (.invalidStart start) ∧
      (LogErr.invalidStart start).code = .invalidArgument) ∧
    (count > 0 → start ≥ 0 → st.treeType = .log → start ≥ st.treeSize →
      ∃ e, getLeavesByRange st start count = .error e ∧ LogErr.code e = .outOfRange) ∧
    (count > 0 → start ≥ 0 → st.treeType = .log → 0 < st.treeSize →
      start < st.treeSize →
      getLeavesByRange st start count =
        scanLeaves st.treeSize (rangeRows st start (min count (st.treeSize - start))) start) ∧
    (∀ ls, getLeavesByRange st start count = .ok ls →
      ∀ k, (hk : k < ls.length) → (ls.get ⟨k, hk⟩).leafIndex = start + k) ∧
    (∀ g w2, count > 0 → start ≥ 0 →
      (st.treeType = .log → 0 < st.treeSize ∧ start < st.treeSize) →
      start ≤ g → g < w2 →
      w2 < start +
        (if st.treeType = .log then min count (st.treeSize - start) else count) →
      st.seqdb g = none → (st.seqdb w2).isSome → g < st.treeSize →
      ∃ e, getLeavesByRange st start count = .error e ∧ LogErr.code e = .internal) := by
  refine ⟨?_, ?_, ?_, ?_, ?_, ?_⟩
  · intro hc
    refine ⟨?_, rfl⟩
    unfold getLeavesByRange getLeavesByRangeInternal
    rw [if_pos hc]
  · intro hc hst
    refine ⟨?_, rfl⟩
    unfold getLeavesByRange getLeavesByRangeInternal
    rw [if_neg (by omega), if_pos hst]
  · intro hc hst htype hbig
    unfold getLeavesByRange getLeavesByRangeInternal
    rw [if_neg (by omega), if_neg (by omega)]
    simp only [htype]
    by_cases hts : st.treeSize ≤ 0
    · rw [if_pos hts]
      exact ⟨.emptyTree, rfl, rfl⟩
    · rw [if_neg hts, if_pos hbig]
      exact ⟨.startBeyondTreeSize start st.treeSize, rfl, rfl⟩
  · intro hc hst htype hts hlt
    unfold getLeavesByRange getLeavesByRangeInternal
    rw [if_neg (by omega), if_neg (by omega)]
    simp only [htype]
    rw [if_neg (by omega), if_neg (by omega)]
    have hmin : (if count > st.treeSize - start then st.treeSize - start else count) =
        min count (st.treeSize - start) := by
      rw [min_def]
      by_cases h : count > st.treeSize - start
      · rw [if_pos h, if_neg (by omega)]
      · rw [if_neg h, if_pos (by omega)]
    rw [hmin]
  · intro ls hok k hk
    unfold getLeavesByRange getLeavesByRangeInternal at hok
    by_cases hc : count ≤ 0
    · rw [if_pos hc] at hok; cases hok
    · rw [if_neg hc] at hok
      by_cases hst : start < 0
      · rw [if_pos hst] at hok; cases hok
      · rw [if_neg hst] at hok
        cases htt : st.treeType with
        | log =>
          simp only [htt] at hok
          by_cases h1 : st.treeSize ≤ 0
          · rw [if_pos h1] at hok; cases hok
          · rw [if_neg h1] at hok
            by_cases h2 : start ≥ st.treeSize
            · rw [if_pos h2] at hok; cases hok
            · rw [if_neg h2] at hok
              exact scanLeaves_dense _ _ _ _ hok k hk
        | preorderedLog =>
          simp only [htt] at hok
          exact scanLeaves_dense _ _ _ _ hok k hk
  · intro g w2 hc hst htl hag hgw hw2lt hgnone hw2some hgts
    unfold getLeavesByRange getLeavesByRangeInternal
    rw [if_neg (by omega), if_neg (by omega)]
    cases htt : st.treeType with
    | log =>
      obtain ⟨h1, h2⟩ := htl htt
      simp only [htt] at hw2lt ⊢
      rw [if_neg (by omega), if_neg (by omega)]
      rw [if_pos trivial] at hw2lt
      have hmin : (if count > st.treeSize - start then st.treeSize - start else count) =
          min count (st.treeSize - start) := by
        rw [min_def]
        by_cases h : count > st.treeSize - start
        · rw [if_pos h, if_neg (by omega)]
        · rw [if_neg h, if_pos (by omega)]
      rw [hmin]
      have hcpos : 0 < min count (st.treeSize - start) := by
        rw [min_def]
        split <;> omega
      have hw2n : w2 < start + (((min count (st.treeSize - start)).toNat : Nat) : Int) := by
        rw [Int.toNat_of_nonneg (by omega)]
        exact hw2lt
      exact scanLeaves_gap_error st.seqdb (min count (st.treeSize - start)).toNat
        start st.treeSize g w2 hag hgw hw2n hgnone hw2some hgts
    | preorderedLog =>
      simp only [htt] at hw2lt ⊢
      rw [if_neg (by simp)] at hw2lt
      have hw2n : w2 < start + ((count.toNat : Nat) : Int) := by
        rw [Int.toNat_of_nonneg (by omega)]
        exact hw2lt
      exact scanLeaves_gap_error st.seqdb count.toNat start st.treeSize g w2
        hag hgw hw2n hgnone hw2some hgts

/-- Concrete check of C3: bad count, bad start and start beyond tree size are
rejected on `exLogState`, and the gap at sequence number 1 of `exGapState`
is reported as an internal integrity error. -/
theorem getLeavesByRange_validation_and_density_witness :
    (getLeavesByRange exLogState 0 (-1) = .error (.invalidCount (-1))) ∧
    (getLeavesByRange exLogState (-2) 5 = .error (.invalidStart (-2))) ∧
    (∃ e, getLeavesByRange exLogState 7 5 = .error e ∧ LogErr.code e = .outOfRange) ∧
    (∃ e, getLeavesByRange exGapState 0 3 = .error e ∧ LogErr.code e = .internal) := by
  refine ⟨?_, ?_, ?_, ?_⟩
  · exact ((getLeavesByRange_validation_and_density exLogState 0 (-1)).1 (by decide)).1
  · exact ((getLeavesByRange_validation_and_density exLogState (-2) 5).2.1
      (by decide) (by decide)).1
  · exact (getLeavesByRange_validation_and_density exLogState 7 5).2.2.1
      (by decide) (by decide) (by decide) (by decide)
  · exact (getLeavesByRange_validation_and_density exGapState 0 3).2.2.2.2.2 1 2
      (by decide) (by decide) (fun _ => by decide) (by decide) (by decide)
      (by decide) (by decide) (by decide) (by decide)

/-- C9: for a `PREORDERED_LOG` tree, `DequeueLeaves(limit, cutoff)` is
exactly `GetLeavesByRange(tree_size, limit)` (returning the scanned leaves
with the transaction state untouched), and the cutoff time has no effect on
the result. -/
theorem dequeueLeaves_preordered_is_ranged_scan (st : LogTXState)
    (limit cutoffNanos : Int) (h : st.treeType = .preorderedLog) :
    dequeueLeaves st limit cutoffNanos =
      (match getLeavesByRange st st.treeSize limit with
       | .error e => .error e
       | .ok ls => .ok (ls, st)) ∧
    (∀ cutoff2, dequeueLeaves st limit cutoffNanos = dequeueLeaves st limit cutoff2) := by
  constructor
  · unfold dequeueLeaves
    simp only [h]
    rfl
  · intro cutoff2
    unfold dequeueLeaves
    simp only [h]

/-- Concrete check of C9 on `exPreState`: dequeues with cutoffs 99 and 0
agree and both equal the ranged scan from `tree_size = 1`. -/
theorem dequeueLeaves_preordered_is_ranged_scan_witness :
    dequeueLeaves exPreState 2 99 =
      (match getLeavesByRange exPreState exPreState.treeSize 2 with
       | .error e => .error e
       | .ok ls => .ok (ls, exPreState)) ∧
    dequeueLeaves exPreState 2 99 = dequeueLeaves exPreState 2 0 := by
  have h := dequeueLeaves_preordered_is_ranged_scan exPreState 2 99 rfl
  exact ⟨h.1, h.2 0⟩

theorem addSeqLoop_spec (ts : Int) :
    ∀ (ord : List leafAndPosition) (st : PreState) (res : List (Option QStatus)),
      (∀ ol ∈ ord, ol.leaf.leafIdentityHash.length = hashSizeBytes) →
      ∃ res2 st2, addSeqLoop ts st res ord = .ok (res2, st2) ∧
        res2.length = res.length ∧
        (∀ (j : Nat), (∀ ol ∈ ord, ol.idx ≠ j) → res2[j]? = res[j]?) ∧
        (∀ (j : Nat) (s : QStatus), res[j]? = some (some s) →
          ∃ s2, res2[j]? = some (some s2)) ∧
        (∀ ol ∈ ord, ol.idx < res.length → ∃ s, res2[ol.idx]? = some (some s)) := by
  intro ord
  induction ord with
  | nil =>
    intro st res hlen
    refine ⟨res, st, rfl, rfl, fun j hj => rfl, fun j s hs => ⟨s, hs⟩, ?_⟩
    intro ol hol
    cases hol
  | cons ol rest ih =>
    intro st res hlen
    have hlol : ol.leaf.leafIdentityHash.length = hashSizeBytes :=
      hlen ol (List.mem_cons_self _ _)
    have hlrest : ∀ p ∈ rest, p.leaf.leafIdentityHash.length = hashSizeBytes :=
      fun p hp => hlen p (List.mem_cons_of_mem _ hp)
    obtain ⟨res2, st2, hloop, hl, huntouched, hsome, hset⟩ :=
      ih (addSeqStep ts st ol.leaf).2 (res.set ol.idx (some (addSeqStep ts st ol.leaf).1))
        hlrest
    refine ⟨res2, st2, ?_, ?_, ?_, ?_, ?_⟩
    · unfold addSeqLoop
      rw [if_neg (by simp [hlol])]
      exact hloop
    · rw [hl, List.length_set]
    · intro j hj
      have hne : ol.idx ≠ j := hj ol (List.mem_cons_self _ _)
      rw [huntouched j (fun p hp => hj p (List.mem_cons_of_mem _ hp))]
      exact List.getElem?_set_ne hne
    · intro j s hs
      by_cases hij : ol.idx = j
      · subst hij
        have hjlt : ol.idx < res.length := by
          by_contra hge
          rw [List.getElem?_eq_none (by omega)] at hs
          cases hs
        exact hsome ol.idx (addSeqStep ts st ol.leaf).1
          (by rw [List.getElem?_set_self hjlt])
      · exact hsome j s (by rw [List.getElem?_set_ne hij]; exact hs)
    · intro p hp hplt
      rcases List.mem_cons.1 hp with rfl | hprest
      · exact hsome p.idx (addSeqStep ts st p.leaf).1
          (by rw [List.getElem?_set_self hplt])
      · exact hset p hprest (by rw [List.length_set]; exact hplt)

/-- C4: each pair of inserts of `AddSequencedLeaves` is atomic under the
per-leaf savepoint.  First conjunct: when the leaf-data insert succeeds
(fresh identity hash) but the sequenced insert conflicts on an already-used
sequence number or identity hash, the step rolls the state back to the
savepoint (the leaf-data insert included) and the slot status is
FAILED_PRECONDITION.  Second conjunct: when neither insert conflicts, both
rows are committed.  Third conjunct: with well-sized hashes the batch never
aborts on a conflict — every input position receives a status slot. -/
theorem addSequencedLeaves_savepoint_atomicity (ts : Int) :
    (∀ (st : PreState) (leaf : LogLeaf),
      hashInLeafData st.leafData leaf.leafIdentityHash = false →
      seqConflict st.seqLeafData leaf = true →
      addSeqStep ts st leaf = (.failedPreconditionLeafIndex, st) ∧
      QStatus.code .failedPreconditionLeafIndex = .failedPrecondition) ∧
    (∀ (st : PreState) (leaf : LogLeaf),
      hashInLeafData st.leafData leaf.leafIdentityHash = false →
      seqConflict st.seqLeafData leaf = false →
      addSeqStep ts st leaf =
        (.ok, { leafData := st.leafData ++
                  [{ leafIdentityHash := leaf.leafIdentityHash,
                     leafValue := leaf.leafValue, extraData := leaf.extraData,
                     queueTimestampNanos := ts }],
                seqLeafData := st.seqLeafData ++
                  [{ leafIdentityHash := leaf.leafIdentityHash,
                     merkleLeafHash := leaf.merkleLeafHash,
                     sequenceNumber := leaf.leafIndex,
                     integrateTimestampNanos := 0 }] })) ∧
    (∀ (st : PreState) (leaves : List LogLeaf),
      (∀ l ∈ leaves, l.leafIdentityHash.length = hashSizeBytes) →
      ∃ res st2, addSequencedLeaves st leaves ts = .ok (res, st2) ∧
        res.length = leaves.length ∧
        ∀ i, i < leaves.length → ∃ s, res[i]? = some (some s)) := by
  refine ⟨?_, ?_, ?_⟩
  · intro st leaf hfresh hconf
    unfold addSeqStep insertLeafData insertSequencedLeafData
    rw [if_neg (by rw [hashInLeafData] at hfresh; simp [hfresh])]
    rw [if_pos (by rw [seqConflict] at hconf; exact hconf)]
    exact ⟨rfl, rfl⟩
  · intro st leaf hfresh hnoconf
    unfold addSeqStep insertLeafData insertSequencedLeafData
    rw [if_neg (by rw [hashInLeafData] at hfresh; simp [hfresh])]
    rw [if_neg (by rw [seqConflict] at hnoconf; rw [hnoconf]; exact Bool.false_ne_true)]
  · intro st leaves hlen
    have hord : ∀ ol ∈ sortLeavesForInsert leaves,
        ol.leaf.leafIdentityHash.length = hashSizeBytes := by
      intro ol hol
      have := mem_sortLeavesForInsert.1 hol
      exact hlen ol.leaf (List.getElem?_mem this)
    obtain ⟨res2, st2, hloop, hl, _, _, hset⟩ :=
      addSeqLoop_spec ts (sortLeavesForInsert leaves) st
        (List.replicate leaves.length none) hord
    refine ⟨res2, st2, hloop, by rw [hl, List.length_replicate], ?_⟩
    intro i hi
    cases hig : leaves[i]? with
    | none => rw [List.getElem?_eq_none_iff] at hig; omega
    | some l =>
      have hmem : leafAndPosition.mk l i ∈ sortLeavesForInsert leaves :=
        mem_sortLeavesForInsert.2 hig
      exact hset (leafAndPosition.mk l i) hmem (by rw [List.length_replicate]; exact hi)

/-- Concrete check of C4: in a state where sequence number 2 is taken by
hash `[1]`, adding a fresh leaf (hash `[2]`) at index 2 conflicts on the
sequenced insert, leaves the state unchanged, and a one-leaf batch on that
state still returns a full result list. -/
theorem addSequencedLeaves_savepoint_atomicity_witness :
    addSeqStep 9
      { leafData := [{ leafIdentityHash := [1], leafValue := [1], extraData := [],
                       queueTimestampNanos := 0 }],
        seqLeafData := [{ leafIdentityHash := [1], merkleLeafHash := [1],
                          sequenceNumber := 2, integrateTimestampNanos := 0 }] }
      { leafIdentityHash := [2], leafValue := [2], leafIndex := 2 } =
      (.failedPreconditionLeafIndex,
        { leafData := [{ leafIdentityHash := [1], leafValue := [1], extraData := [],
                         queueTimestampNanos := 0 }],
          seqLeafData := [{ leafIdentityHash := [1], merkleLeafHash := [1],
                            sequenceNumber := 2, integrateTimestampNanos := 0 }] }) ∧
    (∃ res st2, addSequencedLeaves
        { leafData := [], seqLeafData := [] }
        [{ leafIdentityHash := List.replicate 32 3, leafValue := [3], leafIndex := 0 }]
        9 = .ok (res, st2) ∧ res.length = 1 ∧
        ∀ i, i < 1 → ∃ s, res[i]? = some (some s)) := by
  constructor
  · exact ((addSequencedLeaves_savepoint_atomicity 9).1
      { leafData := [{ leafIdentityHash := [1], leafValue := [1], extraData := [],
                       queueTimestampNanos := 0 }],
        seqLeafData := [{ leafIdentityHash := [1], merkleLeafHash := [1],
                          sequenceNumber := 2, integrateTimestampNanos := 0 }] }
      { leafIdentityHash := [2], leafValue := [2], leafIndex := 2 }
      (by decide) (by decide)).1
  · have h := (addSequencedLeaves_savepoint_atomicity 9).2.2
      { leafData := [], seqLeafData := [] }
      [{ leafIdentityHash := List.replicate 32 3, leafValue := [3], leafIndex := 0 }]
      (by intro l hl; rcases List.mem_singleton.1 hl with rfl; rfl)
    obtain ⟨res, st2, h1, h2, h3⟩ := h
    exact ⟨res, st2, h1, by simpa using h2, h3⟩

theorem leafDataRow_hash (l : LogLeaf) :
    (LeafDataRow.mk l.leafIdentityHash l.leafValue l.extraData
      (l.queueTimestampNanos.getD 0)).leafIdentityHash = l.leafIdentityHash := rfl

theorem queueLoop_cons_dup {db : LogDB} {ex : List (Option LogLeaf)}
    {ol : leafAndPosition} {rest : List leafAndPosition}
    (h : hashInLeafData db.leafData ol.leaf.leafIdentityHash = true) :
    queueLoop db ex (ol :: rest) = queueLoop db (ex.set ol.idx (some ol.leaf)) rest := by
  rw [hashInLeafData] at h
  conv_lhs => rw [queueLoop]
  simp only [insertLeafData]
  rw [if_pos h]

theorem queueLoop_cons_fresh {db : LogDB} {ex : List (Option LogLeaf)}
    {ol : leafAndPosition} {rest : List leafAndPosition}
    (h : hashInLeafData db.leafData ol.leaf.leafIdentityHash = false) :
    queueLoop db ex (ol :: rest) =
      queueLoop
        { db with
          leafData := db.leafData ++
            [{ leafIdentityHash := ol.leaf.leafIdentityHash,
               leafValue := ol.leaf.leafValue, extraData := ol.leaf.extraData,
               queueTimestampNanos := ol.leaf.queueTimestampNanos.getD 0 }]
          unsequenced := db.unsequenced ++
            [{ leafIdentityHash := ol.leaf.leafIdentityHash,
               merkleLeafHash := ol.leaf.merkleLeafHash,
               queueTimestampNanos := ol.leaf.queueTimestampNanos.getD 0,
               bucket := 0 }] }
        ex rest := by
  rw [hashInLeafData] at h
  conv_lhs => rw [queueLoop]
  simp only [insertLeafData]
  rw [if_neg (by rw [h]; exact Bool.false_ne_true)]

theorem hashInLeafData_append (tbl : List LeafDataRow) (row : LeafDataRow) (h : Bytes) :
    hashInLeafData (tbl ++ [row]) h =
      (hashInLeafData tbl h || decide (row.leafIdentityHash = h)) := by
  unfold hashInLeafData
  rw [List.any_append]
  simp

theorem queueLoop_length :
    ∀ (ord : List leafAndPosition) (db : LogDB) (ex : List (Option LogLeaf)),
      (queueLoop db ex ord).2.length = ex.length := by
  intro ord
  induction ord with
  | nil => intro db ex; rfl
  | cons ol rest ih =>
    intro db ex
    by_cases h : hashInLeafData db.leafData ol.leaf.leafIdentityHash = true
    · rw [queueLoop_cons_dup h, ih, List.length_set]
    · rw [queueLoop_cons_fresh (Bool.not_eq_true _ ▸ h), ih]

theorem queueLoop_hashIn :
    ∀ (ord : List leafAndPosition) (db : LogDB) (ex : List (Option LogLeaf)) (h : Bytes),
      hashInLeafData (queueLoop db ex ord).1.leafData h =
        (hashInLeafData db.leafData h ||
          ord.any fun ol => decide (ol.leaf.leafIdentityHash = h)) := by
  intro ord
  induction ord with
  | nil => intro db ex h; simp [queueLoop]
  | cons ol rest ih =>
    intro db ex h
    by_cases hd : hashInLeafData db.leafData ol.leaf.leafIdentityHash = true
    · rw [queueLoop_cons_dup hd, ih]
      by_cases hh : ol.leaf.leafIdentityHash = h
      · rw [← hh]
        simp [hd]
      · simp [hh]
    · have hd2 : hashInLeafData db.leafData ol.leaf.leafIdentityHash = false :=
        Bool.not_eq_true _ ▸ hd
      rw [queueLoop_cons_fresh hd2, ih]
      simp only [hashInLeafData_append]
      simp only [List.any_cons]
      by_cases hh : ol.leaf.leafIdentityHash = h
      · simp [hh]
      · simp [hh]

theorem queueLoop_nodup :
    ∀ (ord : List leafAndPosition) (db : LogDB) (ex : List (Option LogLeaf)),
      (db.leafData.map fun r => r.leafIdentityHash).Nodup →
      ((queueLoop db ex ord).1.leafData.map fun r => r.leafIdentityHash).Nodup := by
  intro ord
  induction ord with
  | nil => intro db ex h; exact h
  | cons ol rest ih =>
    intro db ex h
    by_cases hd : hashInLeafData db.leafData ol.leaf.leafIdentityHash = true
    · rw [queueLoop_cons_dup hd]
      exact ih _ _ h
    · have hd2 : hashInLeafData db.leafData ol.leaf.leafIdentityHash = false :=
        Bool.not_eq_true _ ▸ hd
      rw [queueLoop_cons_fresh hd2]
      refine ih _ _ ?_
      simp only [List.map_append, List.map_cons, List.map_nil]
      rw [List.nodup_append]
      refine ⟨h, List.nodup_singleton _, ?_⟩
      intro x hx hx2
      rw [List.mem_singleton] at hx2
      subst hx2
      rcases List.mem_map.1 hx with ⟨r, hr, hrh⟩
      have : hashInLeafData db.leafData ol.leaf.leafIdentityHash = true := by
        unfold hashInLeafData
        exact List.any_eq_true.2 ⟨r, hr, by simp [hrh]⟩
      rw [this] at hd2
      cases hd2

theorem queueLoop_untouched :
    ∀ (ord : List leafAndPosition) (db : LogDB) (ex : List (Option LogLeaf)) (j : Nat),
      (∀ ol ∈ ord, ol.idx ≠ j) →
      (queueLoop db ex ord).2[j]? = ex[j]? := by
  intro ord
  induction ord with
  | nil => intro db ex j h; rfl
  | cons ol rest ih =>
    intro db ex j h
    have hne : ol.idx ≠ j := h ol (List.mem_cons_self _ _)
    have hrest : ∀ p ∈ rest, p.idx ≠ j := fun p hp => h p (List.mem_cons_of_mem _ hp)
    by_cases hd : hashInLeafData db.leafData ol.leaf.leafIdentityHash = true
    · rw [queueLoop_cons_dup hd, ih _ _ _ hrest, List.getElem?_set_ne hne]
    · rw [queueLoop_cons_fresh (Bool.not_eq_true _ ▸ hd), ih _ _ _ hrest]

theorem queueLoop_mem_some :
    ∀ (ord : List leafAndPosition) (db : LogDB) (ex : List (Option LogLeaf)) (l : LogLeaf),
      some l ∈ (queueLoop db ex ord).2 →
      some l ∈ ex ∨ ∃ ol ∈ ord, ol.leaf = l := by
  intro ord
  induction ord with
  | nil =>
    intro db ex l h
    exact Or.inl h
  | cons ol rest ih =>
    intro db ex l h
    by_cases hd : hashInLeafData db.leafData ol.leaf.leafIdentityHash = true
    · rw [queueLoop_cons_dup hd] at h
      rcases ih _ _ _ h with hmem | ⟨p, hp, hpl⟩
      · rcases List.mem_or_eq_of_mem_set hmem with hmem2 | heq
        · exact Or.inl hmem2
        · right
          exact ⟨ol, List.mem_cons_self _ _, (Option.some_inj.1 heq).symm⟩
      · exact Or.inr ⟨p, List.mem_cons_of_mem _ hp, hpl⟩
    · rw [queueLoop_cons_fresh (Bool.not_eq_true _ ▸ hd)] at h
      rcases ih _ _ _ h with hmem | ⟨p, hp, hpl⟩
      · exact Or.inl hmem
      · exact Or.inr ⟨p, List.mem_cons_of_mem _ hp, hpl⟩

theorem queueLoop_existing_at :
    ∀ (l1 : List leafAndPosition) (ol : leafAndPosition) (l2 : List leafAndPosition)
      (db : LogDB) (ex : List (Option LogLeaf)),
      (∀ p ∈ l1, p.idx ≠ ol.idx) → (∀ p ∈ l2, p.idx ≠ ol.idx) →
      ol.idx < ex.length →
      (queueLoop db ex (l1 ++ ol :: l2)).2[ol.idx]? =
        (if (hashInLeafData db.leafData ol.leaf.leafIdentityHash ||
            l1.any fun p =>
              decide (p.leaf.leafIdentityHash = ol.leaf.leafIdentityHash)) = true
         then some (some ol.leaf) else ex[ol.idx]?) := by
  intro l1
  induction l1 with
  | nil =>
    intro ol l2 db ex h1 h2 hlt
    simp only [List.nil_append, List.any_nil, Bool.or_false]
    by_cases hd : hashInLeafData db.leafData ol.leaf.leafIdentityHash = true
    · rw [queueLoop_cons_dup hd, queueLoop_untouched l2 _ _ _ h2,
        List.getElem?_set_self hlt, if_pos hd]
    · have hd2 : hashInLeafData db.leafData ol.leaf.leafIdentityHash = false :=
        Bool.not_eq_true _ ▸ hd
      rw [queueLoop_cons_fresh hd2, queueLoop_untouched l2 _ _ _ h2, if_neg hd]
  | cons p l1 ih =>
    intro ol l2 db ex h1 h2 hlt
    have hpne : p.idx ≠ ol.idx := h1 p (List.mem_cons_self _ _)
    have h1rest : ∀ q ∈ l1, q.idx ≠ ol.idx := fun q hq => h1 q (List.mem_cons_of_mem _ hq)
    rw [List.cons_append]
    by_cases hp : hashInLeafData db.leafData p.leaf.leafIdentityHash = true
    · rw [queueLoop_cons_dup hp]
      rw [ih ol l2 db _ h1rest h2 (by rw [List.length_set]; exact hlt)]
      rw [List.getElem?_set_ne hpne]
      congr 1
      simp only [List.any_cons]
      by_cases hph : p.leaf.leafIdentityHash = ol.leaf.leafIdentityHash
      · rw [← hph]
        simp [hp]
      · simp [hph]
    · have hp2 : hashInLeafData db.leafData p.leaf.leafIdentityHash = false :=
        Bool.not_eq_true _ ▸ hp
      rw [queueLoop_cons_fresh hp2]
      rw [ih ol l2 _ _ h1rest h2 hlt]
      congr 1
      simp only [hashInLeafData_append, List.any_cons]
      by_cases hph : p.leaf.leafIdentityHash = ol.leaf.leafIdentityHash
      · simp [hph]
      · simp [hph, Bool.or_assoc]

theorem pair_sublist_enumFrom {α : Type} :
    ∀ (l : List α) (k j i : Nat) (a b : α), j < i →
      l[j]? = some a → l[i]? = some b →
      List.Sublist [(k + j, a), (k + i, b)] (l.enumFrom k) := by
  intro l
  induction l with
  | nil =>
    intro k j i a b hij hj hi
    simp at hj
  | cons x xs ih =>
    intro k j i a b hij hj hi
    cases j with
    | zero =>
      simp only [List.getElem?_cons_zero, Option.some_inj] at hj
      subst hj
      cases i with
      | zero => omega
      | succ i2 =>
        simp only [List.getElem?_cons_succ] at hi
        rw [List.enumFrom_cons]
        refine List.Sublist.cons₂ _ ?_
        rw [List.singleton_sublist]
        rw [List.mk_mem_enumFrom_iff_le_and_getElem?_sub]
        constructor
        · omega
        · have : k + (i2 + 1) - (k + 1) = i2 := by omega
          rw [this]
          exact hi
    | succ j2 =>
      cases i with
      | zero => omega
      | succ i2 =>
        simp only [List.getElem?_cons_succ] at hj hi
        rw [List.enumFrom_cons]
        refine List.Sublist.cons _ ?_
        have e1 : k + (j2 + 1) = (k + 1) + j2 := by omega
        have e2 : k + (i2 + 1) = (k + 1) + i2 := by omega
        rw [e1, e2]
        exact ih (k + 1) j2 i2 a b (by omega) hj hi

theorem nodup_decomposition_facts {ord l1 l2 : List leafAndPosition}
    {x : leafAndPosition}
    (hdec : ord = l1 ++ x :: l2)
    (hnd : (ord.map fun p => p.idx).Nodup) :
    x.idx ∉ (l1.map fun p => p.idx) ∧ x.idx ∉ (l2.map fun p => p.idx) ∧
      ∀ v, v ∈ (l1.map fun p => p.idx) → v ∉ (l2.map fun p => p.idx) := by
  subst hdec
  rw [List.map_append, List.map_cons, List.nodup_append] at hnd
  obtain ⟨hn1, hn2, hdisj⟩ := hnd
  rw [List.nodup_cons] at hn2
  refine ⟨?_, hn2.1, ?_⟩
  · intro hmem
    exact hdisj hmem (List.mem_cons_self _ _)
  · intro v hv1 hv2
    exact hdisj hv1 (List.mem_cons_of_mem _ hv2)

theorem pair_sublist_mem_left {x y : leafAndPosition} {ord l1 l2 : List leafAndPosition}
    (hdec : ord = l1 ++ x :: l2) (hnd : (ord.map fun p => p.idx).Nodup)
    (hsub : List.Sublist [y, x] ord) (hne : y.idx ≠ x.idx) : y ∈ l1 := by
  obtain ⟨hx1, hx2, _⟩ := nodup_decomposition_facts hdec hnd
  rw [hdec] at hsub
  rw [List.sublist_append_iff] at hsub
  obtain ⟨s1, s2, hsplit, hs1, hs2⟩ := hsub
  cases s1 with
  | nil =>
    simp only [List.nil_append] at hsplit
    subst hsplit
    cases hs2 with
    | cons _ h =>
      exfalso
      exact hx2 (List.mem_map_of_mem _ (h.subset (by simp)))
    | cons₂ _ h =>
      exact absurd rfl hne
  | cons a s1t =>
    cases s1t with
    | nil =>
      have ha : a = y := by
        have := hsplit
        simp only [List.cons_append, List.nil_append] at this
        exact (List.cons.inj this).1.symm
      subst ha
      exact hs1.subset (List.mem_cons_self _ _)
    | cons b s1tt =>
      cases s1tt with
      | nil =>
        have hab : a = y ∧ b = x ∧ s2 = [] := by
          simp only [List.cons_append, List.nil_append] at hsplit
          obtain ⟨h1, h2⟩ := List.cons.inj hsplit
          obtain ⟨h3, h4⟩ := List.cons.inj h2
          exact ⟨h1.symm, h3.symm, h4.symm⟩
        obtain ⟨rfl, rfl, rfl⟩ := hab
        exact hs1.subset (List.mem_cons_self _ _)
      | cons c rest =>
        exfalso
        have := congrArg List.length hsplit
        simp at this

theorem pair_sublist_mem_right {x y : leafAndPosition} {ord l1 l2 : List leafAndPosition}
    (hdec : ord = l1 ++ x :: l2) (hnd : (ord.map fun p => p.idx).Nodup)
    (hsub : List.Sublist [x, y] ord) (hne : y.idx ≠ x.idx) : y ∈ l2 := by
  obtain ⟨hx1, hx2, _⟩ := nodup_decomposition_facts hdec hnd
  rw [hdec] at hsub
  rw [List.sublist_append_iff] at hsub
  obtain ⟨s1, s2, hsplit, hs1, hs2⟩ := hsub
  cases s1 with
  | nil =>
    simp only [List.nil_append] at hsplit
    subst hsplit
    cases hs2 with
    | cons _ h =>
      exfalso
      exact hx2 (List.mem_map_of_mem _ (h.subset (by simp)))
    | cons₂ _ h =>
      rw [List.singleton_sublist] at h
      exact h
  | cons a s1t =>
    cases s1t with
    | nil =>
      exfalso
      have ha : a = x := by
        simp only [List.cons_append, List.nil_append] at hsplit
        exact (List.cons.inj hsplit).1.symm
      subst ha
      exact hx1 (List.mem_map_of_mem _ (hs1.subset (List.mem_cons_self _ _)))
    | cons b s1tt =>
      cases s1tt with
      | nil =>
        exfalso
        have hab : a = x := by
          simp only [List.cons_append, List.nil_append] at hsplit
          exact (List.cons.inj hsplit).1.symm
        subst hab
        exact hx1 (List.mem_map_of_mem _ (hs1.subset (List.mem_cons_self _ _)))
      | cons c rest =>
        exfalso
        have := congrArg List.length hsplit
        simp at this

theorem byLeafIdentityHashLe_of_hash_eq {a b : leafAndPosition}
    (h : a.leaf.leafIdentityHash = b.leaf.leafIdentityHash) :
    byLeafIdentityHashLe a b = true := by
  unfold byLeafIdentityHashLe bytesLe
  rw [h, bytesLt_irrefl]
  rfl

theorem sorted_pair_sublist {leaves : List LogLeaf} {j i : Nat} {lj li : LogLeaf}
    (hij : j < i) (hj : leaves[j]? = some lj) (hi : leaves[i]? = some li)
    (hh : lj.leafIdentityHash = li.leafIdentityHash) :
    List.Sublist [leafAndPosition.mk lj j, leafAndPosition.mk li i]
      (sortLeavesForInsert leaves) := by
  have h1 : List.Sublist [(0 + j, lj), (0 + i, li)] (leaves.enumFrom 0) :=
    pair_sublist_enumFrom leaves 0 j i lj li hij hj hi
  have h2 := h1.map fun p : Nat × LogLeaf => leafAndPosition.mk p.2 p.1
  simp only [List.map_cons, List.map_nil, Nat.zero_add] at h2
  have h3 : List.Sublist [leafAndPosition.mk lj j, leafAndPosition.mk li i]
      (enumeratedLeaves leaves) := h2
  exact List.pair_sublist_mergeSort byLeafIdentityHashLe_trans byLeafIdentityHashLe_total
    (byLeafIdentityHashLe_of_hash_eq hh) h3

theorem sortLeavesForInsert_idx_nodup (leaves : List LogLeaf) :
    ((sortLeavesForInsert leaves).map fun p => p.idx).Nodup := by
  have h := (sortLeavesForInsert_perm leaves).map fun p => p.idx
  refine h.nodup_iff.2 ?_
  unfold enumeratedLeaves
  rw [List.map_map]
  have he : ((fun p => p.idx) ∘ fun p : Nat × LogLeaf => leafAndPosition.mk p.2 p.1) =
      Prod.fst := rfl
  rw [he, List.enum_map_fst]
  exact List.nodup_range _

theorem getD_hash_of_getElem? {leaves : List LogLeaf} {i : Nat} {l : LogLeaf}
    (h : leaves[i]? = some l) :
    (leaves.getD i default).leafIdentityHash = l.leafIdentityHash := by
  rw [List.getD_eq_getElem?_getD, h]
  rfl

theorem l1_any_iff_dupBefore {leaves : List LogLeaf} {i : Nat} {l : LogLeaf}
    (hi : leaves[i]? = some l)
    {l1 l2 : List leafAndPosition}
    (hdec : sortLeavesForInsert leaves = l1 ++ leafAndPosition.mk l i :: l2) :
    (l1.any fun p => decide (p.leaf.leafIdentityHash = l.leafIdentityHash)) =
      dupInBatchBefore leaves i := by
  have hnd := sortLeavesForInsert_idx_nodup leaves
  rw [Bool.eq_iff_iff]
  rw [List.any_eq_true]
  unfold dupInBatchBefore
  rw [List.any_eq_true]
  constructor
  · rintro ⟨p, hp, hph⟩
    rw [decide_eq_true_iff] at hph
    have hpord : p ∈ sortLeavesForInsert leaves := by
      rw [hdec]; exact List.mem_append_left _ hp
    have hpleaf : leaves[p.idx]? = some p.leaf := mem_sortLeavesForInsert.1 hpord
    obtain ⟨hi1, _, _⟩ := nodup_decomposition_facts hdec hnd
    have hpne : p.idx ≠ i := by
      intro he
      apply hi1
      simpa [he] using List.mem_map_of_mem (fun q : leafAndPosition => q.idx) hp
    have hplt : p.idx < i := by
      by_contra hge
      have hilt : i < p.idx := by omega
      have hpair := sorted_pair_sublist hilt hi hpleaf (by rw [hph])
      have hpmk : leafAndPosition.mk p.leaf p.idx = p := rfl
      rw [hpmk] at hpair
      have hmem2 := pair_sublist_mem_right hdec hnd hpair (by simpa using hpne)
      obtain ⟨_, _, hdisj2⟩ := nodup_decomposition_facts hdec hnd
      exact hdisj2 p.idx (List.mem_map_of_mem _ hp) (List.mem_map_of_mem _ hmem2)
    refine ⟨p.idx, List.mem_range.2 hplt, ?_⟩
    rw [decide_eq_true_iff]
    rw [getD_hash_of_getElem? hpleaf, getD_hash_of_getElem? hi]
    exact hph
  · rintro ⟨j, hjr, hjh⟩
    rw [List.mem_range] at hjr
    rw [decide_eq_true_iff] at hjh
    rw [getD_hash_of_getElem? hi] at hjh
    cases hjg : leaves[j]? with
    | none =>
      exfalso
      rw [List.getElem?_eq_none_iff] at hjg
      have : i < leaves.length := by
        by_contra hge
        rw [List.getElem?_eq_none (by omega)] at hi
        cases hi
      omega
    | some lj =>
      have hjh2 : lj.leafIdentityHash = l.leafIdentityHash := by
        rw [← getD_hash_of_getElem? hjg]
        exact hjh
      have hpair := sorted_pair_sublist hjr hjg hi hjh2
      have hmem := pair_sublist_mem_left hdec hnd hpair (by simp; omega)
      refine ⟨leafAndPosition.mk lj j, hmem, ?_⟩
      rw [decide_eq_true_iff]
      exact hjh2

theorem getD_map_stamp_hash (leaves : List LogLeaf) (qts : Int) (j : Nat) :
    ((leaves.map (stampLeaf qts)).getD j default).leafIdentityHash =
      (leaves.getD j default).leafIdentityHash := by
  rw [List.getD_eq_getElem?_getD, List.getD_eq_getElem?_getD, List.getElem?_map]
  cases leaves[j]? <;> rfl

theorem dupInBatchBefore_stamped (leaves : List LogLeaf) (qts : Int) (i : Nat) :
    dupInBatchBefore (leaves.map (stampLeaf qts)) i = dupInBatchBefore leaves i := by
  unfold dupInBatchBefore
  simp only [getD_map_stamp_hash]

theorem queueLoop_stamped_at (db : LogDB) (leaves : List LogLeaf) (qts : Int)
    (i : Nat) (l : LogLeaf) (hi : leaves[i]? = some l) :
    (queueLoop db (List.replicate leaves.length none)
        (sortLeavesForInsert (leaves.map (stampLeaf qts)))).2[i]? =
      some (if dupCondition db.leafData leaves i = true
        then some (stampLeaf qts l) else none) := by
  have hsi : (leaves.map (stampLeaf qts))[i]? = some (stampLeaf qts l) := by
    rw [List.getElem?_map, hi]
    rfl
  have hmem : leafAndPosition.mk (stampLeaf qts l) i ∈
      sortLeavesForInsert (leaves.map (stampLeaf qts)) :=
    mem_sortLeavesForInsert.2 hsi
  obtain ⟨l1, l2, hdec⟩ := List.append_of_mem hmem
  have hnd := sortLeavesForInsert_idx_nodup (leaves.map (stampLeaf qts))
  obtain ⟨h1, h2, _⟩ := nodup_decomposition_facts hdec hnd
  have hl1 : ∀ p ∈ l1, p.idx ≠ i := by
    intro p hp he
    apply h1
    simpa [he] using List.mem_map_of_mem (fun q : leafAndPosition => q.idx) hp
  have hl2 : ∀ p ∈ l2, p.idx ≠ i := by
    intro p hp he
    apply h2
    simpa [he] using List.mem_map_of_mem (fun q : leafAndPosition => q.idx) hp
  have hilen : i < leaves.length := by
    by_contra hge
    rw [List.getElem?_eq_none (by omega)] at hi
    cases hi
  have hlen : i < (List.replicate leaves.length (none : Option LogLeaf)).length := by
    rw [List.length_replicate]
    exact hilen
  rw [hdec, queueLoop_existing_at l1 _ l2 db _ hl1 hl2 hlen]
  have hany := l1_any_iff_dupBefore hsi hdec
  have hdup : (hashInLeafData db.leafData
        (leafAndPosition.mk (stampLeaf qts l) i).leaf.leafIdentityHash ||
      l1.any fun p =>
        decide (p.leaf.leafIdentityHash =
          (leafAndPosition.mk (stampLeaf qts l) i).leaf.leafIdentityHash)) =
      dupCondition db.leafData leaves i := by
    unfold dupCondition
    rw [getD_hash_of_getElem? hi]
    congr 1
    rw [hany, dupInBatchBefore_stamped]
  rw [hdup]
  by_cases hc : dupCondition db.leafData leaves i = true
  · rw [if_pos hc, if_pos hc]
  · rw [if_neg hc, if_neg hc]
    exact List.getElem?_replicate_of_lt hilen

theorem buildToRetrieveAux_nodup :
    ∀ (ex : List (Option LogLeaf)) (seen : List Bytes),
      (buildToRetrieveAux seen ex).Nodup ∧
        ∀ h ∈ buildToRetrieveAux seen ex, h ∉ seen := by
  intro ex
  induction ex with
  | nil =>
    intro seen
    exact ⟨List.nodup_nil, by intro h hmem; cases hmem⟩
  | cons e rest ih =>
    intro seen
    cases e with
    | none => exact ih seen
    | some l =>
      unfold buildToRetrieveAux
      by_cases hs : (seen.any fun h => decide (h = l.leafIdentityHash)) = true
      · rw [if_pos hs]
        exact ih seen
      · rw [if_neg hs]
        obtain ⟨ihn, ihs⟩ := ih (l.leafIdentityHash :: seen)
        constructor
        · rw [List.nodup_cons]
          refine ⟨?_, ihn⟩
          intro hmem
          exact ihs _ hmem (List.mem_cons_self _ _)
        · intro h hmem hseen
          rcases List.mem_cons.1 hmem with rfl | hmem2
          · exact hs (List.any_eq_true.2 ⟨_, hseen, by simp⟩)
          · exact ihs _ hmem2 (List.mem_cons_of_mem _ hseen)

theorem buildToRetrieve_nodup (ex : List (Option LogLeaf)) :
    (buildToRetrieve ex).Nodup :=
  (buildToRetrieveAux_nodup ex []).1

theorem mem_buildToRetrieveAux :
    ∀ (ex : List (Option LogLeaf)) (seen : List Bytes) (h : Bytes),
      h ∈ buildToRetrieveAux seen ex ↔
        (∃ l : LogLeaf, some l ∈ ex ∧ l.leafIdentityHash = h) ∧ h ∉ seen := by
  intro ex
  induction ex with
  | nil =>
    intro seen h
    constructor
    · intro hmem; cases hmem
    · rintro ⟨⟨l, hl, _⟩, _⟩; cases hl
  | cons e rest ih =>
    intro seen h
    cases e with
    | none =>
      unfold buildToRetrieveAux
      rw [ih]
      constructor
      · rintro ⟨⟨l, hl, hlh⟩, hns⟩
        exact ⟨⟨l, List.mem_cons_of_mem _ hl, hlh⟩, hns⟩
      · rintro ⟨⟨l, hl, hlh⟩, hns⟩
        rcases List.mem_cons.1 hl with hl0 | hl2
        · cases hl0
        · exact ⟨⟨l, hl2, hlh⟩, hns⟩
    | some l =>
      unfold buildToRetrieveAux
      by_cases hs : (seen.any fun h2 => decide (h2 = l.leafIdentityHash)) = true
      · rw [if_pos hs, ih]
        constructor
        · rintro ⟨⟨l2, hl2, hlh⟩, hns⟩
          exact ⟨⟨l2, List.mem_cons_of_mem _ hl2, hlh⟩, hns⟩
        · rintro ⟨⟨l2, hl2, hlh⟩, hns⟩
          rcases List.mem_cons.1 hl2 with hl0 | hl3
          · exfalso
            have : l2 = l := Option.some_inj.1 hl0
            subst this
            rcases List.any_eq_true.1 hs with ⟨h3, hh3, hh3e⟩
            rw [decide_eq_true_iff] at hh3e
            apply hns
            rw [← hlh, ← hh3e]
            exact hh3
          · exact ⟨⟨l2, hl3, hlh⟩, hns⟩
      · rw [if_neg hs]
        constructor
        · intro hmem
          rcases List.mem_cons.1 hmem with rfl | hmem2
          · refine ⟨⟨l, List.mem_cons_self _ _, rfl⟩, ?_⟩
            intro hseen
            exact hs (List.any_eq_true.2 ⟨_, hseen, by simp⟩)
          · rw [ih] at hmem2
            obtain ⟨⟨l2, hl2, hlh⟩, hns⟩ := hmem2
            refine ⟨⟨l2, List.mem_cons_of_mem _ hl2, hlh⟩, ?_⟩
            intro hseen
            exact hns (List.mem_cons_of_mem _ hseen)
        · rintro ⟨⟨l2, hl2, hlh⟩, hns⟩
          by_cases hhead : h = l.leafIdentityHash
          · rw [hhead]
            exact List.mem_cons_self _ _
          · rcases List.mem_cons.1 hl2 with hl0 | hl3
            · exfalso
              have : l2 = l := Option.some_inj.1 hl0
              subst this
              exact hhead hlh.symm
            · refine List.mem_cons_of_mem _ ?_
              rw [ih]
              refine ⟨⟨l2, hl3, hlh⟩, ?_⟩
              intro hseen
              rcases List.mem_cons.1 hseen with heq | hseen2
              · exact hhead heq
              · exact hns hseen2

theorem mem_buildToRetrieve {ex : List (Option LogLeaf)} {h : Bytes} :
    h ∈ buildToRetrieve ex ↔ ∃ l : LogLeaf, some l ∈ ex ∧ l.leafIdentityHash = h := by
  unfold buildToRetrieve
  rw [mem_buildToRetrieveAux]
  constructor
  · rintro ⟨he, _⟩; exact he
  · intro he; exact ⟨he, by intro hx; cases hx⟩

theorem retrievedLeafOfRow_hash (db : LogDB) (r : LeafDataRow) :
    (retrievedLeafOfRow db r).leafIdentityHash = r.leafIdentityHash := rfl

theorem getLeavesByIdentityHashChecked_ok (db : LogDB) (hashes : List Bytes) :
    getLeavesByIdentityHashChecked db hashes = .ok (getLeafDataByIdentityHash db hashes) := by
  unfold getLeavesByIdentityHashChecked
  rw [if_pos]
  rw [List.all_eq_true]
  intro x hx
  unfold getLeafDataByIdentityHash at hx
  rcases List.mem_map.1 hx with ⟨r, _, hr⟩
  subst hr
  rw [decide_eq_true_iff]
  unfold retrievedLeafOfRow dummyMerkleLeafHash hashSizeBytes
  exact List.length_replicate 32 48

theorem find?_filter_of_imp {α : Type} (p q : α → Bool)
    (himp : ∀ r, p r = true → q r = true) :
    ∀ l : List α, (l.filter q).find? p = l.find? p := by
  intro l
  induction l with
  | nil => rfl
  | cons r rest ih =>
    rw [List.filter_cons]
    by_cases hq : q r = true
    · rw [if_pos hq]
      by_cases hp : p r = true
      · rw [List.find?_cons_of_pos _ hp, List.find?_cons_of_pos _ hp]
      · rw [List.find?_cons_of_neg _ (by simp [hp]), List.find?_cons_of_neg _ (by simp [hp]),
          ih]
    · rw [if_neg hq]
      have hp : p r = false := by
        by_contra hpc
        rw [Bool.not_eq_false] at hpc
        exact hq (himp r hpc)
      rw [List.find?_cons_of_neg _ (by simp [hp]), ih]

theorem filter_retrieve_length {tbl : List LeafDataRow} {T : List Bytes}
    (hnd : (tbl.map fun r => r.leafIdentityHash).Nodup) (hTnd : T.Nodup)
    (hsub : ∀ h ∈ T, hashInLeafData tbl h = true) :
    (tbl.filter fun r => T.any fun h => decide (h = r.leafIdentityHash)).length =
      T.length := by
  have hmapeq : (tbl.filter fun r => T.any fun h => decide (h = r.leafIdentityHash)).length
      = ((tbl.map fun r => r.leafIdentityHash).filter
          fun x => T.any fun h => decide (h = x)).length := by
    rw [List.filter_map]
    rw [List.length_map]
    rfl
  rw [hmapeq]
  have hS : ((tbl.map fun r => r.leafIdentityHash).filter
      fun x => T.any fun h => decide (h = x)).Perm T := by
    apply List.Subperm.antisymm
    · apply List.subperm_of_subset (hnd.filter _)
      intro x hx
      rw [List.mem_filter] at hx
      rcases List.any_eq_true.1 hx.2 with ⟨h, hh, hhe⟩
      rw [decide_eq_true_iff] at hhe
      rw [← hhe]
      exact hh
    · apply List.subperm_of_subset hTnd
      intro h hh
      rw [List.mem_filter]
      constructor
      · have := hsub h hh
        unfold hashInLeafData at this
        rcases List.any_eq_true.1 this with ⟨r, hr, hre⟩
        rw [decide_eq_true_iff] at hre
        rw [← hre]
        exact List.mem_map_of_mem _ hr
      · exact List.any_eq_true.2 ⟨h, hh, by simp⟩
  exact hS.length_eq

theorem replaceExisting_spec (results : List LogLeaf) :
    ∀ ex : List (Option LogLeaf),
      (∀ req : LogLeaf, some req ∈ ex →
        ∃ r, results.find? (fun x =>
          decide (x.leafIdentityHash = req.leafIdentityHash)) = some r) →
      ∃ ex2, replaceExisting results ex = .ok ex2 ∧ ex2.length = ex.length ∧
        (∀ j : Nat, ex[j]? = some none → ex2[j]? = some none) ∧
        (∀ (j : Nat) (req : LogLeaf), ex[j]? = some (some req) →
          ∃ r, results.find? (fun x =>
              decide (x.leafIdentityHash = req.leafIdentityHash)) = some r ∧
            ex2[j]? = some (some r)) := by
  intro ex
  induction ex with
  | nil =>
    intro hfound
    refine ⟨[], rfl, rfl, ?_, ?_⟩
    · intro j hj; simp at hj
    · intro j req hj; simp at hj
  | cons e rest ih =>
    intro hfound
    obtain ⟨ex2, hrep, hlen, hnone, hsome⟩ :=
      ih fun req hreq => hfound req (List.mem_cons_of_mem _ hreq)
    cases e with
    | none =>
      refine ⟨none :: ex2, ?_, by simp [hlen], ?_, ?_⟩
      · unfold replaceExisting
        rw [hrep]
      · intro j hj
        cases j with
        | zero => simp
        | succ j2 =>
          rw [List.getElem?_cons_succ] at hj ⊢
          exact hnone j2 hj
      · intro j req hj
        cases j with
        | zero => simp at hj
        | succ j2 =>
          rw [List.getElem?_cons_succ] at hj ⊢
          exact hsome j2 req hj
    | some req0 =>
      obtain ⟨r0, hr0⟩ := hfound req0 (List.mem_cons_self _ _)
      refine ⟨some r0 :: ex2, ?_, by simp [hlen], ?_, ?_⟩
      · unfold replaceExisting
        rw [hr0, hrep]
      · intro j hj
        cases j with
        | zero => simp at hj
        | succ j2 =>
          rw [List.getElem?_cons_succ] at hj ⊢
          exact hnone j2 hj
      · intro j req hj
        cases j with
        | zero =>
          rw [List.getElem?_cons_zero] at hj
          obtain rfl : req0 = req := Option.some_inj.1 (Option.some_inj.1 hj)
          exact ⟨r0, hr0, by simp⟩
        | succ j2 =>
          rw [List.getElem?_cons_succ] at hj ⊢
          exact hsome j2 req hj

theorem find?_of_hashIn {tbl : List LeafDataRow} {h : Bytes}
    (hin : hashInLeafData tbl h = true) :
    ∃ row, tbl.find? (fun r => decide (r.leafIdentityHash = h)) = some row := by
  unfold hashInLeafData at hin
  have : (tbl.find? fun r => decide (r.leafIdentityHash = h)).isSome := by
    rw [List.find?_isSome]
    exact List.any_eq_true.1 hin
  cases hf : tbl.find? fun r => decide (r.leafIdentityHash = h) with
  | none => rw [hf] at this; cases this
  | some row => exact ⟨row, rfl⟩

theorem results_find {db2 : LogDB} {T : List Bytes} {h : Bytes} (hT : h ∈ T) :
    (getLeafDataByIdentityHash db2 T).find?
        (fun x => decide (x.leafIdentityHash = h)) =
      (db2.leafData.find? fun r => decide (r.leafIdentityHash = h)).map
        (retrievedLeafOfRow db2) := by
  unfold getLeafDataByIdentityHash
  rw [List.find?_map]
  have hcomp : ((fun x : LogLeaf => decide (x.leafIdentityHash = h)) ∘
      retrievedLeafOfRow db2) = fun r : LeafDataRow => decide (r.leafIdentityHash = h) :=
    rfl
  rw [hcomp]
  rw [find?_filter_of_imp _ _ ?himp]
  case himp =>
    intro r hr
    rw [decide_eq_true_iff] at hr
    exact List.any_eq_true.2 ⟨h, hT, by simp [hr]⟩

/-- C2: a unique-key violation on a leaf insert is not a failure of
`QueueLeaves`: the call returns one result per input position; a position
whose identity hash hits an existing row (already stored before the call,
or inserted moments earlier by a preceding position of the same batch)
receives the canonical stored row annotated ALREADY_EXISTS, every other
position receives the caller leaf as queued, and the lookup list of
existing hashes is deduplicated. -/
theorem queueLeaves_duplicate_handling (db : LogDB) (leaves : List LogLeaf) (qts : Int)
    (hwf : (db.leafData.map fun r => r.leafIdentityHash).Nodup)
    (hlen : ∀ l ∈ leaves, l.leafIdentityHash.length = hashSizeBytes) :
    (∀ ex : List (Option LogLeaf), (buildToRetrieve ex).Nodup) ∧
    ∃ res db2, queueLeaves db leaves qts = .ok (res, db2) ∧
      res.length = leaves.length ∧
      ∀ (i : Nat) (l : LogLeaf), leaves[i]? = some l →
        (dupCondition db.leafData leaves i = false →
          res[i]? = some (.queued (stampLeaf qts l))) ∧
        (dupCondition db.leafData leaves i = true →
          ∃ row, db2.leafData.find?
              (fun r => decide (r.leafIdentityHash = l.leafIdentityHash)) = some row ∧
            res[i]? = some (.alreadyExists (retrievedLeafOfRow db2 row))) := by
  refine ⟨buildToRetrieve_nodup, ?_⟩
  have hval : (leaves.all fun l =>
      decide (l.leafIdentityHash.length = hashSizeBytes)) = true := by
    rw [List.all_eq_true]
    intro l hl
    rw [decide_eq_true_iff]
    exact hlen l hl
  set p := queueLoop db (List.replicate leaves.length none)
    (sortLeavesForInsert (leaves.map (stampLeaf qts))) with hp
  have hex0len : p.2.length = leaves.length := by
    rw [hp, queueLoop_length, List.length_replicate]
  have hstamplen : (leaves.map (stampLeaf qts)).length = leaves.length :=
    List.length_map _ _
  have hF_at : ∀ (i : Nat) (l : LogLeaf), leaves[i]? = some l →
      p.2[i]? = some (if dupCondition db.leafData leaves i = true
        then some (stampLeaf qts l) else none) := by
    intro i l hi
    rw [hp]
    exact queueLoop_stamped_at db leaves qts i l hi
  by_cases hall : (p.2.all fun e => e.isNone) = true
  · have htx : queueLeavesTX db leaves qts = .ok (p.2, p.1) := by
      simp only [queueLeavesTX]
      rw [← hp, if_pos hval, if_pos hall]
    have hq : queueLeaves db leaves qts =
        .ok ((p.2.zip (leaves.map (stampLeaf qts))).map fun pr =>
          match pr.1 with
          | some e => QueuedLogLeaf.alreadyExists e
          | none => QueuedLogLeaf.queued pr.2, p.1) := by
      unfold queueLeaves
      rw [htx]
    refine ⟨_, p.1, hq, ?_, ?_⟩
    · rw [List.length_map, List.length_zip, hex0len, hstamplen]
      exact Nat.min_self _
    · intro i l hi
      have hat := hF_at i l hi
      have hdupf : dupCondition db.leafData leaves i = false := by
        by_contra hc
        rw [Bool.not_eq_false] at hc
        rw [hc, if_pos rfl] at hat
        have hmem := List.getElem?_mem hat
        rw [List.all_eq_true] at hall
        have := hall _ hmem
        simp at this
      have hat2 : p.2[i]? = some none := by
        rw [hat, hdupf]
        simp
      constructor
      · intro _
        rw [List.getElem?_map]
        have hz : (p.2.zip (leaves.map (stampLeaf qts)))[i]? =
            some (none, stampLeaf qts l) := by
          rw [List.getElem?_zip_eq_some]
          exact ⟨hat2, by rw [List.getElem?_map, hi]; rfl⟩
        rw [hz]
        rfl
      · intro hc
        rw [hc] at hdupf
        cases hdupf
  · have hTnodup := buildToRetrieve_nodup p.2
    have hTsub : ∀ h ∈ buildToRetrieve p.2, hashInLeafData p.1.leafData h = true := by
      intro h hh
      rcases mem_buildToRetrieve.1 hh with ⟨l, hl, hlh⟩
      rw [hp] at hl
      rcases queueLoop_mem_some _ _ _ _ hl with hmem | ⟨ol, holm, hole⟩
      · exfalso
        rw [List.mem_replicate] at hmem
        cases hmem.2
      · have hhi := queueLoop_hashIn (sortLeavesForInsert (leaves.map (stampLeaf qts)))
          db (List.replicate leaves.length none) h
        rw [← hp] at hhi
        rw [hhi]
        refine Bool.or_eq_true_iff.2 (Or.inr ?_)
        exact List.any_eq_true.2 ⟨ol, holm, by rw [decide_eq_true_iff, hole, hlh]⟩
    have hnodup2 : (p.1.leafData.map fun r => r.leafIdentityHash).Nodup := by
      rw [hp]
      exact queueLoop_nodup _ _ _ hwf
    have hresults_len : (getLeafDataByIdentityHash p.1 (buildToRetrieve p.2)).length =
        (buildToRetrieve p.2).length := by
      unfold getLeafDataByIdentityHash
      rw [List.length_map]
      exact filter_retrieve_length hnodup2 hTnodup hTsub
    have hfound : ∀ req : LogLeaf, some req ∈ p.2 →
        ∃ r, (getLeafDataByIdentityHash p.1 (buildToRetrieve p.2)).find?
          (fun x => decide (x.leafIdentityHash = req.leafIdentityHash)) = some r := by
      intro req hreq
      have hhT : req.leafIdentityHash ∈ buildToRetrieve p.2 :=
        mem_buildToRetrieve.2 ⟨req, hreq, rfl⟩
      rw [results_find hhT]
      obtain ⟨row, hrow⟩ := find?_of_hashIn (hTsub _ hhT)
      exact ⟨retrievedLeafOfRow p.1 row, by rw [hrow]; rfl⟩
    obtain ⟨ex2, hrep, hex2len, hnone2, hsome2⟩ := replaceExisting_spec _ p.2 hfound
    have htx : queueLeavesTX db leaves qts = .ok (ex2, p.1) := by
      simp only [queueLeavesTX]
      rw [← hp, if_pos hval, if_neg hall, getLeavesByIdentityHashChecked_ok]
      dsimp only
      rw [if_pos hresults_len, hrep]
    have hq : queueLeaves db leaves qts =
        .ok ((ex2.zip (leaves.map (stampLeaf qts))).map fun pr =>
          match pr.1 with
          | some e => QueuedLogLeaf.alreadyExists e
          | none => QueuedLogLeaf.queued pr.2, p.1) := by
      unfold queueLeaves
      rw [htx]
    refine ⟨_, p.1, hq, ?_, ?_⟩
    · rw [List.length_map, List.length_zip, hex2len, hex0len, hstamplen]
      exact Nat.min_self _
    · intro i l hi
      have hat := hF_at i l hi
      constructor
      · intro hdupf
        rw [hdupf] at hat
        simp only [Bool.false_eq_true, if_false] at hat
        have hat3 := hnone2 i hat
        rw [List.getElem?_map]
        have hz : (ex2.zip (leaves.map (stampLeaf qts)))[i]? =
            some (none, stampLeaf qts l) := by
          rw [List.getElem?_zip_eq_some]
          exact ⟨hat3, by rw [List.getElem?_map, hi]; rfl⟩
        rw [hz]
        rfl
      · intro hdupt
        rw [hdupt, if_pos rfl] at hat
        obtain ⟨r, hfind, hex2i⟩ := hsome2 i (stampLeaf qts l) hat
        have hhT2 : l.leafIdentityHash ∈ buildToRetrieve p.2 :=
          mem_buildToRetrieve.2 ⟨stampLeaf qts l, List.getElem?_mem hat, rfl⟩
        have hstamphash : (stampLeaf qts l).leafIdentityHash = l.leafIdentityHash := rfl
        rw [hstamphash] at hfind
        rw [results_find hhT2] at hfind
        obtain ⟨row, hrow⟩ := find?_of_hashIn (hTsub _ hhT2)
        rw [hrow] at hfind
        have hr : r = retrievedLeafOfRow p.1 row := (Option.some_inj.1 hfind).symm
        refine ⟨row, hrow, ?_⟩
        rw [List.getElem?_map]
        have hz : (ex2.zip (leaves.map (stampLeaf qts)))[i]? = some (some r, stampLeaf qts l) := by
          rw [List.getElem?_zip_eq_some]
          exact ⟨hex2i, by rw [List.getElem?_map, hi]; rfl⟩
        rw [hz, hr]
        rfl

/-- Concrete check of C2 (scenario S2 of the spec): queueing a duplicate of
the stored leaf and one fresh leaf yields ALREADY_EXISTS with the canonical
stored row at position 0 and a queued result at position 1. -/
theorem queueLeaves_duplicate_handling_witness :
    ∃ res db2, queueLeaves exQueueDB [exLeafA, exLeafB] 9 = .ok (res, db2) ∧
      res.length = 2 ∧
      (∃ row, db2.leafData.find?
          (fun r => decide (r.leafIdentityHash = exLeafA.leafIdentityHash)) = some row ∧
        res[0]? = some (.alreadyExists (retrievedLeafOfRow db2 row))) ∧
      res[1]? = some (.queued (stampLeaf 9 exLeafB)) := by
  obtain ⟨-, res, db2, hq, hrlen, hpos⟩ :=
    queueLeaves_duplicate_handling exQueueDB [exLeafA, exLeafB] 9 (by decide)
      (by intro l hl; rcases List.mem_cons.1 hl with rfl | hl2
          · decide
          · rcases List.mem_singleton.1 hl2 with rfl; decide)
  refine ⟨res, db2, hq, by rw [hrlen]; rfl, ?_, ?_⟩
  · exact (hpos 0 exLeafA (by decide)).2 (by decide)
  · exact (hpos 1 exLeafB (by decide)).1 (by decide)
